import Mathlib

/-!
# Verification of the binhis histogram / thresholding core (`src/image.rs`)

Shallow embedding of the `Image` operations of `src/image.rs` and proofs of the
specification claims about them.

Modelling conventions, used consistently below:

* Rust `u8` / `u32` / `usize` values are modelled as `Nat`.  Arithmetic that
  cannot overflow in context (additions of histogram counts bounded by the
  pixel count, index arithmetic bounded by the buffer length) is modelled with
  plain `Nat` operations; the theorems carry the buffer invariant
  `data.length = 4 * width * height` (and, where counts matter, a bound on
  `width * height`) that justifies this.
* Rust integer *subtraction* is modelled by the checked `csub`, which returns
  `none` exactly when the subtraction would underflow.  Underflow is an
  arithmetic program error in Rust (a panic in debug builds, a two's-complement
  wrap in release builds), so `none` marks the faulting executions; theorems
  that assert panic-freedom prove the result is `some _`.
* Rust `f32` values are modelled as exact rationals, with NaN tracked
  explicitly: type `QF := Option ℚ`, where `none` plays the role of NaN.
  `qdiv` returns `none` on a zero divisor; in every embedded division the
  numerator is provably zero whenever the divisor is zero (the `0.0 / 0.0`
  case, which is NaN in IEEE arithmetic), so this is faithful — `±∞` never
  arises in the embedded code paths.  Comparisons involving `none` are `false`,
  as IEEE comparisons involving NaN are.  The decimal literals `0.2126`,
  `0.7152`, `0.0722`, `255.0`, `0.01` are taken at their exact decimal values.
* `expr as u8` / `as u32` casts from floats are Rust saturating casts:
  truncation toward zero, clamped to the target range, with NaN mapped to 0.
* The objective expressions of the entropy, minimum-error and fuzzy
  minimum-error selectors involve `f32::log2`, a transcendental function with
  no exact rational model; those objective *values* are abstracted as explicit
  function parameters, while every other part of those selectors (the
  probability and window computations, the scan/selection loops, the skip
  conditions) is embedded exactly.
-/

namespace Binhis

/-- `f32` with NaN tracked: `none` is NaN, `some q` a finite value. -/
abbrev QF : Type := Option ℚ

/-- IEEE addition on the NaN-tracking rationals. -/
def qadd : QF → QF → QF
  | some a, some b => some (a + b)
  | _, _ => none

/-- IEEE subtraction on the NaN-tracking rationals. -/
def qsub : QF → QF → QF
  | some a, some b => some (a - b)
  | _, _ => none

/-- IEEE multiplication on the NaN-tracking rationals. -/
def qmul : QF → QF → QF
  | some a, some b => some (a * b)
  | _, _ => none

/-- IEEE division on the NaN-tracking rationals.  A zero divisor yields
`none`; in every use below the numerator is zero whenever the divisor is
(the `0.0 / 0.0 = NaN` case), so collapsing it to NaN is faithful. -/
def qdiv : QF → QF → QF
  | some a, some b => if b = 0 then none else some (a / b)
  | _, _ => none

/-- IEEE absolute value. -/
def qabs : QF → QF
  | some a => some |a|
  | none => none

/-- IEEE strict `>`: any comparison with NaN is `false`. -/
def qgtB : QF → QF → Bool
  | some a, some b => decide (b < a)
  | _, _ => false

/-- IEEE strict `<`: any comparison with NaN is `false`. -/
def qltB : QF → QF → Bool
  | some a, some b => decide (a < b)
  | _, _ => false

/-- Rust `f32::round`: round half away from zero (for the nonnegative values
that arise here, `⌊x + 1/2⌋`, which is Mathlib's `round`). -/
def qround : QF → QF
  | some a => some (round a : ℤ)
  | none => none

/-- Rust saturating cast `f32 as u8`: truncate toward zero, clamp to
`[0, 255]`, NaN to `0`.  The values cast below are nonnegative, for which
truncation toward zero is `Int.floor`. -/
def u8castQ (q : ℚ) : ℕ := (min ⌊q⌋ 255).toNat

/-- `f32 as u8` lifted to NaN-tracking values (NaN casts to `0`). -/
def u8castQF : QF → ℕ
  | some q => u8castQ q
  | none => 0

/-- Rust saturating cast `f32 as u32` (nonnegative values: floor, clamp). -/
def u32castQ (q : ℚ) : ℕ := (min ⌊q⌋ (2 ^ 32 - 1)).toNat

/-- Checked natural subtraction: `none` models the Rust arithmetic-overflow
program error (panic in debug builds). -/
def csub (a b : ℕ) : Option ℕ := if b ≤ a then some (a - b) else none

/-- The RGBA pixel buffer of `Image` (`src/image.rs`, lines 15–20). -/
structure Image where
  width : ℕ
  height : ℕ
  data : List ℕ
deriving DecidableEq

/-- The buffer invariant every decoded image satisfies: RGBA8 layout
(`data.length = 4 * width * height`) with byte-sized entries. -/
def Image.Valid (img : Image) : Prop :=
  img.data.length = 4 * img.width * img.height ∧ ∀ b ∈ img.data, b < 256

instance (img : Image) : Decidable img.Valid := by
  unfold Image.Valid; infer_instance

/-- `data.chunks(4)` on an RGBA8 buffer: the list of (R,G,B,A) quadruples.
Under the buffer invariant there is no trailing partial chunk, so dropping
one is unobservable in every theorem below. -/
def chunks4 : List ℕ → List (ℕ × ℕ × ℕ × ℕ)
  | a :: b :: c :: d :: rest => (a, b, c, d) :: chunks4 rest
  | _ => []

/-- Channel projection: the `ColorComponent` ordinals 0,1,2,3 select R,G,B,A
(`src/image.rs`, lines 8–13). -/
def comp (c : ℕ) (p : ℕ × ℕ × ℕ × ℕ) : ℕ :=
  match c with
  | 0 => p.1
  | 1 => p.2.1
  | 2 => p.2.2.1
  | _ => p.2.2.2

/-- `Image::get_histogram` (lines 45–63): bucket `v` of channel `c` holds the
number of pixels whose channel-`c` byte is `v` (the per-pixel increment loop
makes each bucket a count). -/
def chanHist (img : Image) (c : ℕ) (v : ℕ) : ℕ :=
  ((chunks4 img.data).map (comp c)).count v

/-- The grayscale luminance of lines 69–71:
`(r·0.2126 + g·0.7152 + b·0.0722) as u8` with the decimal weights taken
exactly (their sum is exactly 1). -/
def grayLum (r g b : ℕ) : ℕ :=
  u8castQ ((r * (2126 / 10000 : ℚ) + g * (7152 / 10000 : ℚ) + b * (722 / 10000 : ℚ)))

/-- `Image::get_grayscale_histogram` (lines 65–77). -/
def grayHist (img : Image) (v : ℕ) : ℕ :=
  ((chunks4 img.data).map (fun p => grayLum p.1 p.2.1 p.2.2.1)).count v

/-- The per-pixel test of `Image::threshold` (lines 189–198): `val` starts 0
and is set to 255 whenever some RGB channel lies in `[low, high]`. -/
def thresholdVal (low high r g b : ℕ) : ℕ :=
  if (low ≤ r ∧ r ≤ high) ∨ (low ≤ g ∧ g ≤ high) ∨ (low ≤ b ∧ b ≤ high) then 255 else 0

/-- The buffer rewrite of `Image::threshold` (lines 186–214): each pixel's
R, G, B are overwritten with `val`, its alpha byte kept from the clone. -/
def thresholdData (low high : ℕ) : List ℕ → List ℕ
  | r :: g :: b :: a :: rest =>
      thresholdVal low high r g b :: thresholdVal low high r g b ::
        thresholdVal low high r g b :: a :: thresholdData low high rest
  | _ => []

/-- `Image::threshold` (lines 186–214). -/
def threshold (img : Image) (low high : ℕ) : Image :=
  { width := img.width, height := img.height,
    data := thresholdData low high img.data }

end Binhis

namespace Binhis

/-! ### Basic facts about the buffer structure -/

/-- A list of length `4 * (n + 1)` splits off one RGBA quadruple. -/
lemma exists_cons4 (l : List ℕ) (n : ℕ) (hl : l.length = 4 * (n + 1)) :
    ∃ r g b a rest, l = r :: g :: b :: a :: rest ∧ rest.length = 4 * n := by
  match l with
  | [] => simp at hl
  | [_] => simp at hl; omega
  | [_, _] => simp at hl; omega
  | [_, _, _] => simp at hl; omega
  | r :: g :: b :: a :: rest =>
      refine ⟨r, g, b, a, rest, rfl, ?_⟩
      simp [List.length_cons] at hl
      omega

lemma thresholdData_length (low high : ℕ) (l : List ℕ) (n : ℕ)
    (h : l.length = 4 * n) : (thresholdData low high l).length = 4 * n := by
  induction n generalizing l with
  | zero =>
      rcases List.length_eq_zero.mp h with rfl
      simp [thresholdData]
  | succ n ih =>
      obtain ⟨r, g, b, a, rest, rfl, hr⟩ := exists_cons4 l n h
      simp only [thresholdData, List.length_cons, ih rest hr]
      omega

lemma thresholdData_getD (low high : ℕ) (l : List ℕ) (n i : ℕ)
    (hl : l.length = 4 * n) (hi : i < n) :
    (thresholdData low high l).getD (4 * i) 0
        = thresholdVal low high (l.getD (4 * i) 0) (l.getD (4 * i + 1) 0) (l.getD (4 * i + 2) 0)
      ∧ (thresholdData low high l).getD (4 * i + 1) 0
        = thresholdVal low high (l.getD (4 * i) 0) (l.getD (4 * i + 1) 0) (l.getD (4 * i + 2) 0)
      ∧ (thresholdData low high l).getD (4 * i + 2) 0
        = thresholdVal low high (l.getD (4 * i) 0) (l.getD (4 * i + 1) 0) (l.getD (4 * i + 2) 0)
      ∧ (thresholdData low high l).getD (4 * i + 3) 0 = l.getD (4 * i + 3) 0 := by
  induction i generalizing l n with
  | zero =>
      match n, hi with
      | n + 1, hi =>
          obtain ⟨r, g, b, a, rest, rfl, hr⟩ := exists_cons4 l n hl
          simp [thresholdData]
  | succ i ih =>
      match n, hi with
      | n + 1, hi =>
          obtain ⟨r, g, b, a, rest, rfl, hr⟩ := exists_cons4 l n hl
          have hi' : i < n := by omega
          have h4 : 4 * (i + 1) = (4 * i) + 1 + 1 + 1 + 1 := by ring
          rcases ih rest n hr hi' with ⟨h0, h1, h2, h3⟩
          refine ⟨?_, ?_, ?_, ?_⟩ <;>
            [skip; skip; skip; skip] <;>
            · simp only [thresholdData, h4, List.getD_cons_succ]
              first
                | exact h0
                | exact h1
                | exact h2
                | exact h3

/-- Pointwise description of `threshold` (helper for C1). -/
lemma threshold_pixel (img : Image) (low high : ℕ) (hv : img.Valid)
    (i : ℕ) (hi : i < img.width * img.height) :
    ((threshold img low high).data.getD (4 * i) 0
        = (if (low ≤ img.data.getD (4 * i) 0 ∧ img.data.getD (4 * i) 0 ≤ high)
              ∨ (low ≤ img.data.getD (4 * i + 1) 0 ∧ img.data.getD (4 * i + 1) 0 ≤ high)
              ∨ (low ≤ img.data.getD (4 * i + 2) 0 ∧ img.data.getD (4 * i + 2) 0 ≤ high)
           then 255 else 0)) := by
  have hl : img.data.length = 4 * (img.width * img.height) :=
    hv.1.trans (Nat.mul_assoc 4 _ _)
  have h := (thresholdData_getD low high img.data _ i hl hi).1
  simpa [threshold, thresholdVal] using h

/-- A value lies in the inclusive range `[low, high]` (spec §4.3). -/
def InRange (low high v : ℕ) : Prop := low ≤ v ∧ v ≤ high

instance (low high v : ℕ) : Decidable (InRange low high v) := by
  unfold InRange; infer_instance

/-- Spec §4.3 statement of `threshold`: each of the three RGB bytes of pixel
`i` becomes 255 when some input RGB byte of that pixel lies in `[low, high]`
and 0 otherwise, and the alpha byte is copied from the input. -/
def ThresholdClaim (img : Image) (low high : ℕ) : Prop :=
  ∀ i < img.width * img.height,
    (∀ c < 3,
        (threshold img low high).data.getD (4 * i + c) 0 =
          if InRange low high (img.data.getD (4 * i) 0)
              ∨ InRange low high (img.data.getD (4 * i + 1) 0)
              ∨ InRange low high (img.data.getD (4 * i + 2) 0)
          then 255 else 0)
      ∧ (threshold img low high).data.getD (4 * i + 3) 0 = img.data.getD (4 * i + 3) 0

/-- C1: `threshold(buf, low, high)` sets a pixel's R, G and B all to 255 iff
at least one of its R, G or B lies in `[low, high]` inclusive, and 0
otherwise; alpha bytes are identical to the input's; and when `low > high`
no pixel qualifies, so every RGB byte of the result is 0. -/
theorem threshold_spec (img : Image) (low high : ℕ) (hv : img.Valid) :
    ThresholdClaim img low high
      ∧ (high < low →
          ∀ i < img.width * img.height, ∀ c < 3,
            (threshold img low high).data.getD (4 * i + c) 0 = 0) := by
  have hl : img.data.length = 4 * (img.width * img.height) :=
    hv.1.trans (Nat.mul_assoc 4 _ _)
  have key : ∀ i < img.width * img.height, ∀ c < 3,
      (threshold img low high).data.getD (4 * i + c) 0 =
        if InRange low high (img.data.getD (4 * i) 0)
            ∨ InRange low high (img.data.getD (4 * i + 1) 0)
            ∨ InRange low high (img.data.getD (4 * i + 2) 0)
        then 255 else 0 := by
    intro i hi c hc
    obtain ⟨h0, h1, h2, _⟩ := thresholdData_getD low high img.data _ i hl hi
    interval_cases c
    · simpa [threshold, thresholdVal, InRange] using h0
    · simpa [threshold, thresholdVal, InRange] using h1
    · simpa [threshold, thresholdVal, InRange] using h2
  refine ⟨fun i hi => ⟨key i hi, ?_⟩, fun hlh i hi c hc => ?_⟩
  · obtain ⟨_, _, _, h3⟩ := thresholdData_getD low high img.data _ i hl hi
    simpa [threshold] using h3
  · rw [key i hi c hc]
    have : ∀ v : ℕ, ¬ InRange low high v := fun v ⟨h₁, h₂⟩ => absurd (h₁.trans h₂) (by omega)
    simp [this]

/-- Witness for C1: Scenario A of spec §8, the 2×1 image with pixels
`(10,10,10,255)` and `(200,200,200,255)` and the range `[50, 255]`. -/
theorem threshold_spec_witness :
    (Image.Valid ⟨2, 1, [10, 10, 10, 255, 200, 200, 200, 255]⟩)
      ∧ (ThresholdClaim ⟨2, 1, [10, 10, 10, 255, 200, 200, 200, 255]⟩ 50 255
          ∧ (255 < 50 →
              ∀ i < 2 * 1, ∀ c < 3,
                (threshold ⟨2, 1, [10, 10, 10, 255, 200, 200, 200, 255]⟩ 50 255).data.getD
                  (4 * i + c) 0 = 0)) :=
  ⟨by decide, threshold_spec ⟨2, 1, [10, 10, 10, 255, 200, 200, 200, 255]⟩ 50 255 (by decide)⟩

/-! ### Histogram sums (C2) -/

lemma chunks4_length (l : List ℕ) (n : ℕ) (h : l.length = 4 * n) :
    (chunks4 l).length = n := by
  induction n generalizing l with
  | zero =>
      rcases List.length_eq_zero.mp h with rfl
      simp [chunks4]
  | succ n ih =>
      obtain ⟨r, g, b, a, rest, rfl, hr⟩ := exists_cons4 l n h
      simp [chunks4, ih rest hr]

lemma mem_chunks4 (l : List ℕ) (n : ℕ) (hl : l.length = 4 * n) :
    ∀ p ∈ chunks4 l, p.1 ∈ l ∧ p.2.1 ∈ l ∧ p.2.2.1 ∈ l ∧ p.2.2.2 ∈ l := by
  induction n generalizing l with
  | zero =>
      rcases List.length_eq_zero.mp hl with rfl
      simp [chunks4]
  | succ n ih =>
      obtain ⟨r, g, b, a, rest, rfl, hr⟩ := exists_cons4 l n hl
      intro p hp
      rcases (by simpa [chunks4] using hp : p = (r, g, b, a) ∨ p ∈ chunks4 rest) with rfl | hp'
      · simp
      · obtain ⟨h1, h2, h3, h4⟩ := ih rest hr p hp'
        exact ⟨by simp [h1], by simp [h2], by simp [h3], by simp [h4]⟩

/-- Summing the 256 bucket counts of a list of sub-256 values gives its
length (each element is counted in exactly one bucket). -/
lemma sum_count_eq_length (l : List ℕ) (h : ∀ x ∈ l, x < 256) :
    ∑ v ∈ Finset.range 256, l.count v = l.length := by
  induction l with
  | nil => simp
  | cons x xs ih =>
      have hx : x ∈ Finset.range 256 := Finset.mem_range.mpr (h x (by simp))
      have ihs := ih (fun y hy => h y (by simp [hy]))
      simp only [List.count_cons, List.length_cons, beq_iff_eq]
      rw [Finset.sum_add_distrib, ihs]
      have : (∑ v ∈ Finset.range 256, if x = v then 1 else 0) = 1 := by
        rw [Finset.sum_ite_eq (Finset.range 256) x (fun _ => 1)]
        simp [hx]
      omega

lemma u8castQ_le (q : ℚ) : u8castQ q ≤ 255 := by
  unfold u8castQ
  omega

/-- Mathlib's `Rat` operations do not reduce in the kernel, so concrete
evaluations go through these bridge equations into `Nat` arithmetic. -/
lemma u8castQ_eq (q : ℚ) : u8castQ q = min ⌊q⌋₊ 255 := by
  unfold u8castQ
  rcases le_or_lt 0 q with h | h
  · have h1 : ⌊q⌋.toNat = ⌊q⌋₊ := Int.floor_toNat q
    have h2 : 0 ≤ ⌊q⌋ := Int.floor_nonneg.2 h
    omega
  · have h1 : ⌊q⌋ < 0 := by
      rw [Int.floor_lt]
      exact_mod_cast h
    have h2 : ⌊q⌋₊ = 0 := Nat.floor_of_nonpos h.le
    omega

lemma u32castQ_eq (q : ℚ) : u32castQ q = min ⌊q⌋₊ (2 ^ 32 - 1) := by
  unfold u32castQ
  rcases le_or_lt 0 q with h | h
  · have h1 : ⌊q⌋.toNat = ⌊q⌋₊ := Int.floor_toNat q
    have h2 : 0 ≤ ⌊q⌋ := Int.floor_nonneg.2 h
    omega
  · have h1 : ⌊q⌋ < 0 := by
      rw [Int.floor_lt]
      exact_mod_cast h
    have h2 : ⌊q⌋₊ = 0 := Nat.floor_of_nonpos h.le
    omega

lemma u8castQ_div_nat (a b : ℕ) : u8castQ ((a : ℚ) / (b : ℚ)) = min (a / b) 255 := by
  rw [u8castQ_eq, Nat.floor_div_nat, Nat.floor_natCast]

lemma grayLum_eq (r g b : ℕ) :
    grayLum r g b = min ((2126 * r + 7152 * g + 722 * b) / 10000) 255 := by
  unfold grayLum
  rw [show ((r : ℚ) * (2126 / 10000 : ℚ) + (g : ℚ) * (7152 / 10000 : ℚ)
        + (b : ℚ) * (722 / 10000 : ℚ))
      = ((2126 * r + 7152 * g + 722 * b : ℕ) : ℚ) / ((10000 : ℕ) : ℚ) by
    push_cast; ring]
  exact u8castQ_div_nat _ _

lemma grayLum_lt (r g b : ℕ) : grayLum r g b < 256 :=
  Nat.lt_succ_of_le (u8castQ_le _)

/-- The grayscale histogram's 256 buckets sum to the pixel count. -/
lemma grayHist_sum (img : Image) (hv : img.Valid) :
    ∑ v ∈ Finset.range 256, grayHist img v = img.width * img.height := by
  have hl : img.data.length = 4 * (img.width * img.height) :=
    hv.1.trans (Nat.mul_assoc 4 _ _)
  have hcl : (chunks4 img.data).length = img.width * img.height :=
    chunks4_length _ _ hl
  unfold grayHist
  rw [sum_count_eq_length, List.length_map, hcl]
  intro x hx
  obtain ⟨p, _, rfl⟩ := List.mem_map.mp hx
  exact grayLum_lt _ _ _

/-- Each channel histogram's 256 buckets sum to the pixel count. -/
lemma chanHist_sum (img : Image) (hv : img.Valid) (c : ℕ) :
    ∑ v ∈ Finset.range 256, chanHist img c v = img.width * img.height := by
  have hl : img.data.length = 4 * (img.width * img.height) :=
    hv.1.trans (Nat.mul_assoc 4 _ _)
  have hcl : (chunks4 img.data).length = img.width * img.height :=
    chunks4_length _ _ hl
  unfold chanHist
  rw [sum_count_eq_length, List.length_map, hcl]
  intro x hx
  obtain ⟨p, hp, rfl⟩ := List.mem_map.mp hx
  obtain ⟨h1, h2, h3, h4⟩ := mem_chunks4 img.data _ hl p hp
  match c with
  | 0 => exact hv.2 _ h1
  | 1 => exact hv.2 _ h2
  | 2 => exact hv.2 _ h3
  | (n + 3) => exact hv.2 _ h4

/-- C2: for every valid image the 256 bucket counts of each of the Red,
Green and Blue channel histograms sum to `width * height`, and so do the
256 bucket counts of the grayscale histogram. -/
theorem histogram_sums (img : Image) (hv : img.Valid) :
    (∀ c < 3, ∑ v ∈ Finset.range 256, chanHist img c v = img.width * img.height)
      ∧ ∑ v ∈ Finset.range 256, grayHist img v = img.width * img.height :=
  ⟨fun c _ => chanHist_sum img hv c, grayHist_sum img hv⟩

/-- Witness for C2 at the Scenario A image. -/
theorem histogram_sums_witness :
    (Image.Valid ⟨2, 1, [10, 10, 10, 255, 200, 200, 200, 255]⟩)
      ∧ ((∀ c < 3,
            ∑ v ∈ Finset.range 256,
              chanHist ⟨2, 1, [10, 10, 10, 255, 200, 200, 200, 255]⟩ c v = 2 * 1)
          ∧ ∑ v ∈ Finset.range 256,
              grayHist ⟨2, 1, [10, 10, 10, 255, 200, 200, 200, 255]⟩ v = 2 * 1) :=
  ⟨by decide, histogram_sums ⟨2, 1, [10, 10, 10, 255, 200, 200, 200, 255]⟩ (by decide)⟩

/-! ### `Image::percent_black_selection` (lines 216–231; C4 and C10) -/

/-- The target count of line 219:
`((width * height) as f32 * percent).floor() as u32`. -/
def pctTarget (img : Image) (percent : ℚ) : ℕ :=
  u32castQ ((img.width * img.height : ℕ) * percent)

/-- The cumulative scan of lines 220–228: starting from bucket `i` with the
partial sum `sum` of the earlier buckets and `fuel = 256 - i` buckets left
to visit, return the first level whose cumulative count reaches `target`,
or the initial value 0 of `threshold` when the loop completes without
`break`. -/
def findCutAux (hist : ℕ → ℕ) (target : ℕ) : ℕ → ℕ → ℕ → ℕ
  | 0, _i, _sum => 0
  | fuel + 1, i, sum =>
      if target ≤ sum + hist i then i
      else findCutAux hist target fuel (i + 1) (sum + hist i)

/-- The grayscale threshold `percent_black_selection` computes. -/
def pctCut (img : Image) (percent : ℚ) : ℕ :=
  findCutAux (grayHist img) (pctTarget img percent) 256 0 0

/-- `Image::percent_black_selection` (the found level is at most 255, so the
`as u8` cast on line 230 is the identity). -/
def percentBlackSelection (img : Image) (percent : ℚ) : Image :=
  threshold img (pctCut img percent) 255

/-- Cumulative grayscale-histogram count up to and including level `t`. -/
def grayCum (img : Image) (t : ℕ) : ℕ :=
  ∑ j ∈ Finset.range (t + 1), grayHist img j

lemma findCutAux_found (hist : ℕ → ℕ) (target : ℕ) :
    ∀ k i sum, i + k = 256 → sum = ∑ j ∈ Finset.range i, hist j →
      (∃ t, i ≤ t ∧ t < 256 ∧ target ≤ ∑ j ∈ Finset.range (t + 1), hist j) →
      (i ≤ findCutAux hist target k i sum ∧ findCutAux hist target k i sum < 256
        ∧ target ≤ ∑ j ∈ Finset.range (findCutAux hist target k i sum + 1), hist j
        ∧ ∀ t, i ≤ t → t < findCutAux hist target k i sum →
            ∑ j ∈ Finset.range (t + 1), hist j < target) := by
  intro k
  induction k with
  | zero =>
      intro i sum hik _ hex
      obtain ⟨t, hit, ht, _⟩ := hex
      omega
  | succ k ih =>
      intro i sum hik hsum hex
      have hi : i < 256 := by omega
      have hcum : sum + hist i = ∑ j ∈ Finset.range (i + 1), hist j := by
        rw [Finset.sum_range_succ, hsum]
      rw [findCutAux]
      by_cases hbr : target ≤ sum + hist i
      · rw [if_pos hbr]
        exact ⟨le_refl i, hi, by rw [← hcum]; exact hbr, fun t h1 h2 => absurd (h1.trans_lt h2) (lt_irrefl i)⟩
      · rw [if_neg hbr]
        have hex' : ∃ t, i + 1 ≤ t ∧ t < 256 ∧ target ≤ ∑ j ∈ Finset.range (t + 1), hist j := by
          obtain ⟨t, hit, ht, htar⟩ := hex
          refine ⟨t, ?_, ht, htar⟩
          rcases Nat.eq_or_lt_of_le hit with rfl | h
          · rw [← hcum] at htar; omega
          · omega
        obtain ⟨ha, hb, hc, hd⟩ := ih (i + 1) (sum + hist i) (by omega) hcum hex'
        refine ⟨by omega, hb, hc, fun t h1 h2 => ?_⟩
        rcases Nat.eq_or_lt_of_le h1 with rfl | h
        · rw [← hcum]; omega
        · exact hd t (by omega) h2

lemma findCutAux_notfound (hist : ℕ → ℕ) (target : ℕ) :
    ∀ k i sum, i + k = 256 →
      (∀ t, i ≤ t → t < 256 → sum + ∑ j ∈ Finset.Ico i (t + 1), hist j < target) →
      findCutAux hist target k i sum = 0 := by
  intro k
  induction k with
  | zero =>
      intro i sum _ _
      rw [findCutAux]
  | succ k ih =>
      intro i sum hik hall
      have hi : i < 256 := by omega
      have hnb : ¬ target ≤ sum + hist i := by
        have := hall i (le_refl i) hi
        rw [Finset.sum_Ico_eq_sum_range] at this
        simp at this
        omega
      rw [findCutAux, if_neg hnb]
      refine ih (i + 1) (sum + hist i) (by omega) (fun t h1 h2 => ?_)
      have := hall t (by omega) h2
      have hsplit : ∑ j ∈ Finset.Ico i (t + 1), hist j
        = hist i + ∑ j ∈ Finset.Ico (i + 1) (t + 1), hist j := by
        rw [← Finset.sum_eq_sum_Ico_succ_bot (by omega : i < t + 1)]
      omega

/-- Scenario B evaluation: the grayscale histogram of the 2×1 test image is
one count at level 10 and one at level 200. -/
lemma grayHist_scenarioB :
    grayHist ⟨2, 1, [10, 10, 10, 255, 200, 200, 200, 255]⟩
      = fun v => List.count v [10, 200] := by
  funext v
  show (List.map (fun p => grayLum p.1 p.2.1 p.2.2.1)
      (chunks4 [10, 10, 10, 255, 200, 200, 200, 255])).count v = _
  rw [show chunks4 [10, 10, 10, 255, 200, 200, 200, 255]
      = [(10, 10, 10, 255), (200, 200, 200, 255)] from rfl]
  simp [grayLum_eq]

lemma pctTarget_scenarioB :
    pctTarget ⟨2, 1, [10, 10, 10, 255, 200, 200, 200, 255]⟩ (1/2) = 1 := by
  unfold pctTarget
  rw [u32castQ_eq]
  norm_num

lemma pctCut_scenarioB :
    pctCut ⟨2, 1, [10, 10, 10, 255, 200, 200, 200, 255]⟩ (1/2) = 10 := by
  unfold pctCut
  rw [pctTarget_scenarioB, grayHist_scenarioB]
  decide

lemma scenarioB_exists :
    ∃ t, t < 256
      ∧ pctTarget ⟨2, 1, [10, 10, 10, 255, 200, 200, 200, 255]⟩ (1/2)
          ≤ grayCum ⟨2, 1, [10, 10, 10, 255, 200, 200, 200, 255]⟩ t := by
  refine ⟨10, by omega, ?_⟩
  rw [pctTarget_scenarioB]
  unfold grayCum
  rw [grayHist_scenarioB]
  decide

/-- C4: `percent_black_selection` computes the target count
`floor(width*height*percent)` (as the saturating `u32` cast of the floored
`f32` product), takes as cutoff the smallest gray level whose cumulative
grayscale-histogram count reaches that target, and returns
`threshold(buf, cutoff, 255)`.  On the 2×1 image with pixels
`(10,10,10,255)` and `(200,200,200,255)` and percent `0.5` the cutoff is 10
and both pixels become white. -/
theorem percent_black_spec :
    (∀ (img : Image) (percent : ℚ),
        (∃ t, t < 256 ∧ pctTarget img percent ≤ grayCum img t) →
        (pctTarget img percent ≤ grayCum img (pctCut img percent)
          ∧ (∀ t < pctCut img percent, grayCum img t < pctTarget img percent)
          ∧ percentBlackSelection img percent
              = threshold img (pctCut img percent) 255))
      ∧ (pctCut ⟨2, 1, [10, 10, 10, 255, 200, 200, 200, 255]⟩ (1/2) = 10
          ∧ (percentBlackSelection ⟨2, 1, [10, 10, 10, 255, 200, 200, 200, 255]⟩ (1/2)).data
              = [255, 255, 255, 255, 255, 255, 255, 255]) := by
  constructor
  · intro img percent hex
    obtain ⟨t, ht, htar⟩ := hex
    have h := findCutAux_found (grayHist img) (pctTarget img percent) 256 0 0
      (by omega) (by simp) ⟨t, Nat.zero_le t, ht, htar⟩
    exact ⟨h.2.2.1, fun u hu => h.2.2.2 u (Nat.zero_le u) hu, rfl⟩
  · refine ⟨pctCut_scenarioB, ?_⟩
    show thresholdData (pctCut ⟨2, 1, [10, 10, 10, 255, 200, 200, 200, 255]⟩ (1/2)) 255
        [10, 10, 10, 255, 200, 200, 200, 255] = _
    rw [pctCut_scenarioB]
    decide

/-- Witness for C4's conditional part: Scenario B of spec §8. -/
theorem percent_black_spec_witness :
    (∃ t, t < 256
        ∧ pctTarget ⟨2, 1, [10, 10, 10, 255, 200, 200, 200, 255]⟩ (1/2)
            ≤ grayCum ⟨2, 1, [10, 10, 10, 255, 200, 200, 200, 255]⟩ t)
      ∧ (pctTarget ⟨2, 1, [10, 10, 10, 255, 200, 200, 200, 255]⟩ (1/2)
            ≤ grayCum ⟨2, 1, [10, 10, 10, 255, 200, 200, 200, 255]⟩
                (pctCut ⟨2, 1, [10, 10, 10, 255, 200, 200, 200, 255]⟩ (1/2))
          ∧ (∀ t < pctCut ⟨2, 1, [10, 10, 10, 255, 200, 200, 200, 255]⟩ (1/2),
              grayCum ⟨2, 1, [10, 10, 10, 255, 200, 200, 200, 255]⟩ t
                < pctTarget ⟨2, 1, [10, 10, 10, 255, 200, 200, 200, 255]⟩ (1/2))
          ∧ percentBlackSelection ⟨2, 1, [10, 10, 10, 255, 200, 200, 200, 255]⟩ (1/2)
              = threshold ⟨2, 1, [10, 10, 10, 255, 200, 200, 200, 255]⟩
                  (pctCut ⟨2, 1, [10, 10, 10, 255, 200, 200, 200, 255]⟩ (1/2)) 255) :=
  ⟨scenarioB_exists,
    percent_black_spec.1 ⟨2, 1, [10, 10, 10, 255, 200, 200, 200, 255]⟩ (1/2)
      scenarioB_exists⟩

lemma pctTarget_c10 : pctTarget ⟨1, 1, [0, 0, 0, 255]⟩ 2 = 2 := by
  unfold pctTarget
  rw [u32castQ_eq]
  norm_num

/-- C10: when the target count exceeds the total pixel count (e.g. for
`percent > 1`) the cumulative scan never reaches it, the cutoff stays 0, and
the result is `threshold(buf, 0, 255)`: R, G and B are 255 at every pixel
and the alpha bytes are the input's. -/
theorem percent_black_unreachable (img : Image) (percent : ℚ) (hv : img.Valid)
    (ht : img.width * img.height < pctTarget img percent) :
    pctCut img percent = 0
      ∧ percentBlackSelection img percent = threshold img 0 255
      ∧ ∀ i < img.width * img.height,
          (∀ c < 3, (percentBlackSelection img percent).data.getD (4 * i + c) 0 = 255)
            ∧ (percentBlackSelection img percent).data.getD (4 * i + 3) 0
                = img.data.getD (4 * i + 3) 0 := by
  have hl : img.data.length = 4 * (img.width * img.height) :=
    hv.1.trans (Nat.mul_assoc 4 _ _)
  have hcut : pctCut img percent = 0 := by
    apply findCutAux_notfound (grayHist img) (pctTarget img percent) 256 0 0 (by omega)
    intro t _ ht256
    have hle : ∑ j ∈ Finset.Ico 0 (t + 1), grayHist img j
        ≤ ∑ v ∈ Finset.range 256, grayHist img v := by
      rw [Finset.range_eq_Ico]
      exact Finset.sum_le_sum_of_subset (Finset.Ico_subset_Ico (le_refl 0) (by omega))
    have := grayHist_sum img hv
    omega
  have hres : percentBlackSelection img percent = threshold img 0 255 := by
    rw [percentBlackSelection, hcut]
  refine ⟨hcut, hres, fun i hi => ⟨fun c hc => ?_, ?_⟩⟩
  · rw [hres]
    obtain ⟨h0, h1, h2, _⟩ := thresholdData_getD 0 255 img.data _ i hl hi
    have hb : img.data.getD (4 * i) 0 < 256 := by
      by_cases hj : 4 * i < img.data.length
      · have he : img.data.getD (4 * i) 0 = img.data[4 * i] := by
          simp [List.getD_eq_getElem?_getD, List.getElem?_eq_getElem hj]
        rw [he]
        exact hv.2 _ (List.getElem_mem hj)
      · rw [List.getD_eq_getElem?_getD, List.getElem?_eq_none (by omega), Option.getD_none]
        omega
    have h255 : thresholdVal 0 255 (img.data.getD (4 * i) 0)
        (img.data.getD (4 * i + 1) 0) (img.data.getD (4 * i + 2) 0) = 255 := by
      unfold thresholdVal
      rw [if_pos (Or.inl ⟨Nat.zero_le _, by omega⟩)]
    show (thresholdData 0 255 img.data).getD (4 * i + c) 0 = 255
    interval_cases c
    · simpa using h0.trans h255
    · exact h1.trans h255
    · exact h2.trans h255
  · obtain ⟨_, _, _, h3⟩ := thresholdData_getD 0 255 img.data _ i hl hi
    rw [hres]
    exact h3

/-- Witness for C10: a 1×1 image with percent 2 (target `⌊1·2⌋ = 2 > 1`). -/
theorem percent_black_unreachable_witness :
    (Image.Valid ⟨1, 1, [0, 0, 0, 255]⟩)
      ∧ 1 * 1 < pctTarget ⟨1, 1, [0, 0, 0, 255]⟩ 2
      ∧ (pctCut ⟨1, 1, [0, 0, 0, 255]⟩ 2 = 0
          ∧ percentBlackSelection ⟨1, 1, [0, 0, 0, 255]⟩ 2 = threshold ⟨1, 1, [0, 0, 0, 255]⟩ 0 255
          ∧ ∀ i < 1 * 1,
              (∀ c < 3, (percentBlackSelection ⟨1, 1, [0, 0, 0, 255]⟩ 2).data.getD (4 * i + c) 0 = 255)
                ∧ (percentBlackSelection ⟨1, 1, [0, 0, 0, 255]⟩ 2).data.getD (4 * i + 3) 0
                    = (⟨1, 1, [0, 0, 0, 255]⟩ : Image).data.getD (4 * i + 3) 0) :=
  ⟨by decide, by simp [pctTarget_c10],
    percent_black_unreachable ⟨1, 1, [0, 0, 0, 255]⟩ 2 (by decide) (by simp [pctTarget_c10])⟩

/-! ### `Image::get_equalized_image` (lines 79–131; C3, part of C9)

The pixel loop of lines 112–124 rewrites each RGB byte through its channel's
cumulative histogram; the generic RGB-wise chunk mapper `chanMapOpt` below
captures that loop shape (it is shared with `get_stretched_image`, whose
pixel loop at lines 166–177 has the same shape). -/

/-- Per-channel RGB rewrite of an RGBA buffer, alpha untouched; `none`
propagates a faulting channel computation (a Rust arithmetic panic). -/
def chanMapOpt (V : ℕ → ℕ → Option ℕ) : List ℕ → Option (List ℕ)
  | r :: g :: b :: a :: rest =>
      (V 0 r).bind fun r' =>
      (V 1 g).bind fun g' =>
      (V 2 b).bind fun b' =>
      (chanMapOpt V rest).map fun rest' => r' :: g' :: b' :: a :: rest'
  | _ => some []

/-- Pure form of `chanMapOpt` used to state its result. -/
def chanMapData (F : ℕ → ℕ → ℕ) : List ℕ → List ℕ
  | r :: g :: b :: a :: rest => F 0 r :: F 1 g :: F 2 b :: a :: chanMapData F rest
  | _ => []

lemma chanMapOpt_eq_some (V : ℕ → ℕ → Option ℕ) (F : ℕ → ℕ → ℕ) :
    ∀ n (l : List ℕ), l.length = 4 * n →
      (∀ p ∈ chunks4 l,
        V 0 p.1 = some (F 0 p.1) ∧ V 1 p.2.1 = some (F 1 p.2.1)
          ∧ V 2 p.2.2.1 = some (F 2 p.2.2.1)) →
      chanMapOpt V l = some (chanMapData F l) := by
  intro n
  induction n with
  | zero =>
      intro l hl _
      rcases List.length_eq_zero.mp hl with rfl
      simp [chanMapOpt, chanMapData]
  | succ n ih =>
      intro l hl hp
      obtain ⟨r, g, b, a, rest, rfl, hr⟩ := exists_cons4 l n hl
      have hhead := hp (r, g, b, a) (by simp [chunks4])
      have htail : ∀ p ∈ chunks4 rest,
          V 0 p.1 = some (F 0 p.1) ∧ V 1 p.2.1 = some (F 1 p.2.1)
            ∧ V 2 p.2.2.1 = some (F 2 p.2.2.1) := by
        intro p hmem
        exact hp p (by simp [chunks4, hmem])
      show chanMapOpt V (r :: g :: b :: a :: rest) = _
      rw [chanMapOpt]
      rw [hhead.1, hhead.2.1, hhead.2.2, ih rest hr htail]
      rfl

lemma chanMapData_length (F : ℕ → ℕ → ℕ) (l : List ℕ) (n : ℕ)
    (h : l.length = 4 * n) : (chanMapData F l).length = 4 * n := by
  induction n generalizing l with
  | zero =>
      rcases List.length_eq_zero.mp h with rfl
      simp [chanMapData]
  | succ n ih =>
      obtain ⟨r, g, b, a, rest, rfl, hr⟩ := exists_cons4 l n h
      simp only [chanMapData, List.length_cons, ih rest hr]
      omega

lemma chanMapData_getD (F : ℕ → ℕ → ℕ) (l : List ℕ) (n i : ℕ)
    (hl : l.length = 4 * n) (hi : i < n) :
    (∀ c < 3, (chanMapData F l).getD (4 * i + c) 0 = F c (l.getD (4 * i + c) 0))
      ∧ (chanMapData F l).getD (4 * i + 3) 0 = l.getD (4 * i + 3) 0 := by
  induction i generalizing l n with
  | zero =>
      match n, hi with
      | n + 1, hi =>
          obtain ⟨r, g, b, a, rest, rfl, hr⟩ := exists_cons4 l n hl
          refine ⟨fun c hc => ?_, by simp [chanMapData]⟩
          interval_cases c <;> simp [chanMapData]
  | succ i ih =>
      match n, hi with
      | n + 1, hi =>
          obtain ⟨r, g, b, a, rest, rfl, hr⟩ := exists_cons4 l n hl
          have hi' : i < n := by omega
          have h4 : ∀ c : ℕ, 4 * (i + 1) + c = ((4 * i + c) + 1 + 1 + 1) + 1 := by
            intro c; ring
          obtain ⟨hc3, ha⟩ := ih rest n hr hi'
          refine ⟨fun c hc => ?_, ?_⟩
          · rw [h4 c]
            simp only [chanMapData, List.getD_cons_succ]
            exact hc3 c hc
          · rw [h4 3]
            simp only [chanMapData, List.getD_cons_succ]
            exact ha

/-- The cumulative channel histogram of lines 98–106: the value the loop
stores in `cdf[component][v]` is the prefix sum of the histogram. -/
def cdfAt (img : Image) (c v : ℕ) : ℕ :=
  ∑ j ∈ Finset.range (v + 1), chanHist img c j

/-- The running-minimum fold of lines 98–106: starting at bucket `i` with
partial sum `sum` and current minimum `m` (initially `u32::MAX`), visit the
remaining `fuel = 256 - i` buckets, tracking the smallest cumulative sum. -/
def cdfMinAux (hist : ℕ → ℕ) : ℕ → ℕ → ℕ → ℕ → ℕ
  | 0, _i, _sum, m => m
  | fuel + 1, i, sum, m =>
      cdfMinAux hist fuel (i + 1) (sum + hist i)
        (if sum + hist i < m then sum + hist i else m)

/-- The per-channel `min` value that `get_equalized_image` computes. -/
def minCdf (img : Image) (c : ℕ) : ℕ :=
  cdfMinAux (chanHist img c) 256 0 0 (2 ^ 32 - 1)

/-- The per-channel value map of lines 118–122:
`(cdf[v] - min) as f32 / (pixels - min) as f32 * 255.0`, rounded and cast to
`u8`; the two `u32` subtractions are checked. -/
def equalizeVal (img : Image) (c v : ℕ) : Option ℕ :=
  (csub (cdfAt img c v) (minCdf img c)).bind fun up =>
  (csub (img.width * img.height) (minCdf img c)).bind fun down =>
  some (u8castQF (qround (qmul (qdiv (some (up : ℚ)) (some (down : ℚ))) (some 255))))

/-- `Image::get_equalized_image` (lines 79–131). -/
def getEqualizedImage (img : Image) : Option Image :=
  (chanMapOpt (equalizeVal img) img.data).map fun d =>
    { width := img.width, height := img.height, data := d }

/-- Once the running minimum is at most the running sum it never changes
(the cumulative sums only grow). -/
lemma cdfMinAux_stable (hist : ℕ → ℕ) :
    ∀ fuel i sum m, m ≤ sum → cdfMinAux hist fuel i sum m = m := by
  intro fuel
  induction fuel with
  | zero => intro i sum m _; rfl
  | succ fuel ih =>
      intro i sum m hm
      rw [cdfMinAux, if_neg (by omega)]
      exact ih (i + 1) (sum + hist i) m (by omega)

lemma cdfAt_mono (img : Image) (c : ℕ) {v w : ℕ} (h : v ≤ w) :
    cdfAt img c v ≤ cdfAt img c w :=
  Finset.sum_le_sum_of_subset (Finset.range_subset.mpr (by omega))

lemma cdfAt_le_pixels (img : Image) (hv : img.Valid) (c v : ℕ) (hv255 : v ≤ 255) :
    cdfAt img c v ≤ img.width * img.height := by
  have h1 : cdfAt img c v ≤ cdfAt img c 255 := cdfAt_mono img c hv255
  have h2 : cdfAt img c 255 = img.width * img.height := by
    unfold cdfAt
    exact chanHist_sum img hv c
  omega

/-- The running minimum over the non-decreasing cumulative sums settles at
the first cumulative value `cdf[0]` (C3's `minCdf` characterization; the
`u32::MAX` initialization needs the pixel count to fit in `u32`). -/
lemma minCdf_eq_cdfAt_zero (img : Image) (hv : img.Valid)
    (hwh : img.width * img.height ≤ 2 ^ 32 - 1) (c : ℕ) :
    minCdf img c = cdfAt img c 0 := by
  have h0 : cdfAt img c 0 = chanHist img c 0 := by
    unfold cdfAt
    rw [Finset.sum_range_one]
  have hle : chanHist img c 0 ≤ img.width * img.height := by
    have hs := chanHist_sum img hv c
    have hsub : chanHist img c 0 ≤ ∑ v ∈ Finset.range 256, chanHist img c v :=
      Finset.single_le_sum (f := fun v => chanHist img c v)
        (fun _ _ => Nat.zero_le _) (by simp)
    omega
  unfold minCdf
  rw [show (256 : ℕ) = 255 + 1 from rfl, cdfMinAux]
  by_cases hlt : 0 + chanHist img c 0 < 2 ^ 32 - 1
  · rw [if_pos hlt, cdfMinAux_stable _ _ _ _ _ (le_refl _)]
    omega
  · rw [if_neg hlt, cdfMinAux_stable _ _ _ _ _ (by omega)]
    omega

set_option maxRecDepth 4000 in
/-- Under the C3 hypothesis `minCdf ≠ totalPixels`, the per-channel value
map succeeds and computes exactly the spec formula
`round((cdf[v] - minCdf) / (totalPixels - minCdf) * 255)` (cast to `u8`). -/
lemma equalizeVal_some (img : Image) (hv : img.Valid)
    (hwh : img.width * img.height ≤ 2 ^ 32 - 1) (c : ℕ)
    (hmin : minCdf img c ≠ img.width * img.height) (v : ℕ) :
    equalizeVal img c v
      = some (u8castQ (((round (((cdfAt img c v : ℚ) - (minCdf img c : ℚ))
          / ((img.width * img.height : ℕ) - (minCdf img c : ℚ)) * 255)) : ℤ) : ℚ)) := by
  have hm0 := minCdf_eq_cdfAt_zero img hv hwh c
  have h1 : minCdf img c ≤ cdfAt img c v := by
    rw [hm0]
    exact cdfAt_mono img c (Nat.zero_le v)
  have h2 : minCdf img c ≤ img.width * img.height := by
    rw [hm0]
    exact cdfAt_le_pixels img hv c 0 (by omega)
  have h3 : img.width * img.height - minCdf img c ≠ 0 := by omega
  have h3q : ((img.width * img.height - minCdf img c : ℕ) : ℚ) ≠ 0 := by
    exact_mod_cast h3
  have harg : ((cdfAt img c v - minCdf img c : ℕ) : ℚ)
        / ((img.width * img.height - minCdf img c : ℕ) : ℚ)
      = ((cdfAt img c v : ℚ) - (minCdf img c : ℚ))
        / ((img.width * img.height : ℕ) - (minCdf img c : ℚ)) := by
    rw [Nat.cast_sub h1, Nat.cast_sub h2]
  unfold equalizeVal csub
  rw [if_pos h1, if_pos h2]
  simp only [Option.some_bind, qdiv, qmul, qround, u8castQF, if_neg h3q, harg]

/-- C3: for every valid image (pixel count in `u32` range) in which no RGB
channel has `minCdf = totalPixels`, the tracked running minimum `minCdf`
equals `cdf[0]` for every channel, and `get_equalized_image` succeeds and
maps each pixel's R, G and B value `v` to
`round((cdf[v] - minCdf) / (totalPixels - minCdf) * 255)` using that
channel's cumulative histogram. -/
theorem equalize_spec (img : Image) (hv : img.Valid)
    (hwh : img.width * img.height ≤ 2 ^ 32 - 1)
    (hmin : ∀ c < 3, minCdf img c ≠ img.width * img.height) :
    (∀ c < 3, minCdf img c = cdfAt img c 0)
      ∧ ∃ out, getEqualizedImage img = some out
          ∧ ∀ i < img.width * img.height, ∀ c < 3,
              out.data.getD (4 * i + c) 0
                = u8castQ (((round (((cdfAt img c (img.data.getD (4 * i + c) 0) : ℚ)
                      - (minCdf img c : ℚ))
                    / ((img.width * img.height : ℕ) - (minCdf img c : ℚ)) * 255)) : ℤ) : ℚ) := by
  have hl : img.data.length = 4 * (img.width * img.height) :=
    hv.1.trans (Nat.mul_assoc 4 _ _)
  refine ⟨fun c _ => minCdf_eq_cdfAt_zero img hv hwh c, ?_⟩
  have hp : ∀ p ∈ chunks4 img.data,
      equalizeVal img 0 p.1
          = some ((fun c v => u8castQ (((round (((cdfAt img c v : ℚ) - (minCdf img c : ℚ))
              / ((img.width * img.height : ℕ) - (minCdf img c : ℚ)) * 255)) : ℤ) : ℚ)) 0 p.1)
        ∧ equalizeVal img 1 p.2.1
          = some ((fun c v => u8castQ (((round (((cdfAt img c v : ℚ) - (minCdf img c : ℚ))
              / ((img.width * img.height : ℕ) - (minCdf img c : ℚ)) * 255)) : ℤ) : ℚ)) 1 p.2.1)
        ∧ equalizeVal img 2 p.2.2.1
          = some ((fun c v => u8castQ (((round (((cdfAt img c v : ℚ) - (minCdf img c : ℚ))
              / ((img.width * img.height : ℕ) - (minCdf img c : ℚ)) * 255)) : ℤ) : ℚ)) 2 p.2.2.1) := by
    intro p _
    exact ⟨equalizeVal_some img hv hwh 0 (hmin 0 (by omega)) _,
      equalizeVal_some img hv hwh 1 (hmin 1 (by omega)) _,
      equalizeVal_some img hv hwh 2 (hmin 2 (by omega)) _⟩
  have hsome := chanMapOpt_eq_some (equalizeVal img)
    (fun c v => u8castQ (((round (((cdfAt img c v : ℚ) - (minCdf img c : ℚ))
        / ((img.width * img.height : ℕ) - (minCdf img c : ℚ)) * 255)) : ℤ) : ℚ))
    (img.width * img.height) img.data hl hp
  refine ⟨⟨img.width, img.height,
      chanMapData (fun c v => u8castQ (((round (((cdfAt img c v : ℚ) - (minCdf img c : ℚ))
        / ((img.width * img.height : ℕ) - (minCdf img c : ℚ)) * 255)) : ℤ) : ℚ)) img.data⟩, ?_, ?_⟩
  · rw [getEqualizedImage, hsome]
    rfl
  · intro i hi c hc
    exact (chanMapData_getD _ img.data _ i hl hi).1 c hc

set_option maxRecDepth 4000 in
/-- Witness for C3: a 1×2 image whose channels each have `cdf[0] = 1 ≠ 2`. -/
theorem equalize_spec_witness :
    (Image.Valid ⟨1, 2, [0, 0, 0, 255, 10, 20, 30, 255]⟩)
      ∧ 1 * 2 ≤ 2 ^ 32 - 1
      ∧ (∀ c < 3, minCdf ⟨1, 2, [0, 0, 0, 255, 10, 20, 30, 255]⟩ c ≠ 1 * 2)
      ∧ ((∀ c < 3, minCdf ⟨1, 2, [0, 0, 0, 255, 10, 20, 30, 255]⟩ c
            = cdfAt ⟨1, 2, [0, 0, 0, 255, 10, 20, 30, 255]⟩ c 0)
          ∧ ∃ out, getEqualizedImage ⟨1, 2, [0, 0, 0, 255, 10, 20, 30, 255]⟩ = some out
              ∧ ∀ i < 1 * 2, ∀ c < 3,
                  out.data.getD (4 * i + c) 0
                    = u8castQ (((round (((cdfAt ⟨1, 2, [0, 0, 0, 255, 10, 20, 30, 255]⟩ c
                            ((⟨1, 2, [0, 0, 0, 255, 10, 20, 30, 255]⟩ : Image).data.getD (4 * i + c) 0) : ℚ)
                          - (minCdf ⟨1, 2, [0, 0, 0, 255, 10, 20, 30, 255]⟩ c : ℚ))
                        / ((1 * 2 : ℕ) - (minCdf ⟨1, 2, [0, 0, 0, 255, 10, 20, 30, 255]⟩ c : ℚ))
                          * 255)) : ℤ) : ℚ)) :=
  ⟨by decide, by decide, by decide,
    equalize_spec ⟨1, 2, [0, 0, 0, 255, 10, 20, 30, 255]⟩ (by decide) (by decide) (by decide)⟩

/-! ### `Image::get_stretched_image` (lines 133–184; C8) -/

/-- The min/max scan of lines 147–163 (and, over the grayscale histogram,
of lines 403–412): visit buckets `i, i+1, …` (with `fuel = 256 - i` left),
lowering `m` (initially 255) and raising `M` (initially 0) at every nonzero
bucket.  The two call sites order the two independent updates differently,
which cannot change the result. -/
def minMaxScan (hist : ℕ → ℕ) : ℕ → ℕ → ℕ → ℕ → ℕ × ℕ
  | 0, _i, m, M => (m, M)
  | fuel + 1, i, m, M =>
      if 0 < hist i then
        minMaxScan hist fuel (i + 1) (if i < m then i else m) (if M < i then i else M)
      else
        minMaxScan hist fuel (i + 1) m M

/-- The per-channel `min` of `get_stretched_image`. -/
def chanMin (img : Image) (c : ℕ) : ℕ :=
  (minMaxScan (chanHist img c) 256 0 255 0).1

/-- The per-channel `max` of `get_stretched_image`. -/
def chanMax (img : Image) (c : ℕ) : ℕ :=
  (minMaxScan (chanHist img c) 256 0 255 0).2

/-- The per-channel value map of line 175:
`(v - min) as f32 / (max - min) as f32 * 255.0) as u8`; both `u8`
subtractions are checked. -/
def stretchVal (img : Image) (c v : ℕ) : Option ℕ :=
  (csub v (chanMin img c)).bind fun d =>
  (csub (chanMax img c) (chanMin img c)).bind fun r =>
  some (u8castQF (qmul (qdiv (some (d : ℚ)) (some (r : ℚ))) (some 255)))

/-- `Image::get_stretched_image` (lines 133–184). -/
def getStretchedImage (img : Image) : Option Image :=
  (chanMapOpt (stretchVal img) img.data).map fun d =>
    { width := img.width, height := img.height, data := d }

lemma minMaxScan_le (hist : ℕ → ℕ) :
    ∀ fuel i m M, (minMaxScan hist fuel i m M).1 ≤ m
      ∧ M ≤ (minMaxScan hist fuel i m M).2 := by
  intro fuel
  induction fuel with
  | zero => intro i m M; exact ⟨le_refl m, le_refl M⟩
  | succ fuel ih =>
      intro i m M
      rw [minMaxScan]
      by_cases h : 0 < hist i
      · rw [if_pos h]
        have := ih (i + 1) (if i < m then i else m) (if M < i then i else M)
        constructor
        · exact this.1.trans (by split <;> omega)
        · exact le_trans (by split <;> omega) this.2
      · rw [if_neg h]
        exact ih (i + 1) m M

lemma minMaxScan_bound (hist : ℕ → ℕ) :
    ∀ fuel i m M v, i ≤ v → v < i + fuel → 0 < hist v →
      (minMaxScan hist fuel i m M).1 ≤ v
        ∧ v ≤ (minMaxScan hist fuel i m M).2 := by
  intro fuel
  induction fuel with
  | zero => intro i m M v h1 h2 _; omega
  | succ fuel ih =>
      intro i m M v h1 h2 hv
      rw [minMaxScan]
      rcases Nat.eq_or_lt_of_le h1 with rfl | hlt
      · rw [if_pos hv]
        have hle := minMaxScan_le hist fuel (i + 1)
          (if i < m then i else m) (if M < i then i else M)
        exact ⟨hle.1.trans (by split <;> omega), le_trans (by split <;> omega) hle.2⟩
      · by_cases h : 0 < hist i
        · rw [if_pos h]
          exact ih (i + 1) _ _ v (by omega) (by omega) hv
        · rw [if_neg h]
          exact ih (i + 1) m M v (by omega) (by omega) hv

/-- Every byte occurring as a channel-`c` value has a nonzero histogram
count, so it lies between the channel's computed min and max. -/
lemma chanMinMax_of_mem (img : Image) (hv : img.Valid) (c : ℕ) (hc : c < 3)
    (p : ℕ × ℕ × ℕ × ℕ) (hp : p ∈ chunks4 img.data) :
    chanMin img c ≤ comp c p ∧ comp c p ≤ chanMax img c := by
  have hcount : 0 < chanHist img c (comp c p) := by
    unfold chanHist
    exact List.count_pos_iff.mpr (List.mem_map.mpr ⟨p, hp, rfl⟩)
  have hlt : comp c p < 256 := by
    have hl : img.data.length = 4 * (img.width * img.height) :=
      hv.1.trans (Nat.mul_assoc 4 _ _)
    obtain ⟨h1, h2, h3, h4⟩ := mem_chunks4 img.data _ hl p hp
    match c, hc with
    | 0, _ => exact hv.2 _ h1
    | 1, _ => exact hv.2 _ h2
    | 2, _ => exact hv.2 _ h3
  exact minMaxScan_bound (chanHist img c) 256 0 255 0 (comp c p)
    (Nat.zero_le _) (by omega) hcount

/-- C8: on every valid non-empty image — including one with a constant
channel, where `min = max` makes the divisor zero — `get_stretched_image`
completes without a panic: every checked subtraction succeeds, the
zero-divisor float division yields a (NaN) value rather than a fault, and
the saturating cast accepts it. -/
theorem stretch_no_crash (img : Image) (hv : img.Valid)
    (hne : img.width * img.height ≠ 0) :
    ∃ out, getStretchedImage img = some out := by
  have hl : img.data.length = 4 * (img.width * img.height) :=
    hv.1.trans (Nat.mul_assoc 4 _ _)
  have hminmax : ∀ c < 3, chanMin img c ≤ chanMax img c := by
    intro c hc
    have hne' : chunks4 img.data ≠ [] := by
      have hlen := chunks4_length img.data _ hl
      intro he
      rw [he] at hlen
      simp only [List.length_nil] at hlen
      omega
    obtain ⟨p, hp⟩ := List.exists_mem_of_ne_nil _ hne'
    have := chanMinMax_of_mem img hv c hc p hp
    omega
  have hval : ∀ (c : ℕ), c < 3 → ∀ p ∈ chunks4 img.data,
      stretchVal img c (comp c p)
        = some (u8castQF (qmul (qdiv (some ((comp c p - chanMin img c : ℕ) : ℚ))
            (some ((chanMax img c - chanMin img c : ℕ) : ℚ))) (some 255))) := by
    intro c hc p hp
    obtain ⟨hmin, _⟩ := chanMinMax_of_mem img hv c hc p hp
    unfold stretchVal csub
    rw [if_pos hmin, if_pos (hminmax c hc)]
    rfl
  have hsome := chanMapOpt_eq_some (stretchVal img)
    (fun c v => u8castQF (qmul (qdiv (some ((v - chanMin img c : ℕ) : ℚ))
        (some ((chanMax img c - chanMin img c : ℕ) : ℚ))) (some 255)))
    (img.width * img.height) img.data hl ?_
  · exact ⟨_, by rw [getStretchedImage, hsome]; rfl⟩
  · intro p hp
    exact ⟨hval 0 (by omega) p hp, hval 1 (by omega) p hp, hval 2 (by omega) p hp⟩

set_option maxRecDepth 4000 in
/-- Witness for C8: a 1×1 image with a constant channel (`min = max`). -/
theorem stretch_no_crash_witness :
    (Image.Valid ⟨1, 1, [5, 5, 5, 255]⟩) ∧ 1 * 1 ≠ 0
      ∧ ∃ out, getStretchedImage ⟨1, 1, [5, 5, 5, 255]⟩ = some out :=
  ⟨by decide, by decide, stretch_no_crash ⟨1, 1, [5, 5, 5, 255]⟩ (by decide) (by decide)⟩

/-! ### `Image::entropy_selection` (lines 272–321; C5)

The probabilities `p[i]` and the `max_low`/`max_high` windows are exact
rational computations and are embedded directly; the objective `f` of lines
311–312 involves `f32::log2`, which has no exact rational model, so the
selection loop is embedded parametrically over the sequence of objective
values. -/

/-- The normalized grayscale histogram of lines 273–275. -/
def histProb (img : Image) (i : ℕ) : ℚ :=
  (grayHist img i : ℚ) / ((img.width * img.height : ℕ) : ℚ)

/-- The inner scan of lines 301–305: raise `v` over buckets
`j, j+1, …` (`fuel` of them), taking `p j` whenever `p j > v`. -/
def maxHighScan (p : ℕ → ℚ) : ℕ → ℕ → ℚ → ℚ
  | 0, _j, v => v
  | fuel + 1, j, v => maxHighScan p fuel (j + 1) (if v < p j then p j else v)

/-- `max_high` at candidate `i` (lines 295–305): seeded with `p[i+1]`
(`p[i]` when `i = 255`), then scanned over `j ∈ i+2 .. 255`. -/
def maxHighAt (p : ℕ → ℚ) (i : ℕ) : ℚ :=
  maxHighScan p (256 - (i + 2)) (i + 2) (if i < 255 then p (i + 1) else p i)

/-- `f32::MIN`, the initial `max_sum` of line 276, exactly. -/
def f32min : ℚ := -(2 ^ 128 - 2 ^ 104)

/-- The arg-max loop of lines 291–318 over the objective values `f i`:
update `max_sum` and `threshold` whenever `f i > max_sum` (IEEE `>`, so a
NaN objective never updates). -/
def selectMaxAux (f : ℕ → QF) : ℕ → ℕ → QF → ℕ → ℕ
  | 0, _i, _ms, thr => thr
  | fuel + 1, i, ms, thr =>
      if qgtB (f i) ms then selectMaxAux f fuel (i + 1) (f i) i
      else selectMaxAux f fuel (i + 1) ms thr

/-- The candidate `entropy_selection` picks for objective values `f`. -/
def entropySelect (f : ℕ → QF) : ℕ := selectMaxAux f 256 0 (some f32min) 0

/-- `Image::entropy_selection`, parametric over the objective values. -/
def entropySelection (img : Image) (f : ℕ → QF) : Image :=
  threshold img (entropySelect f) 255

lemma maxHighScan_ge (p : ℕ → ℚ) :
    ∀ fuel j v, v ≤ maxHighScan p fuel j v := by
  intro fuel
  induction fuel with
  | zero => intro j v; exact le_refl v
  | succ fuel ih =>
      intro j v
      rw [maxHighScan]
      exact le_trans (by split <;> simp_all [le_of_lt]) (ih (j + 1) _)

lemma maxHighScan_le (p : ℕ → ℚ) :
    ∀ fuel j v u, j ≤ u → u < j + fuel → p u ≤ maxHighScan p fuel j v := by
  intro fuel
  induction fuel with
  | zero => intro j v u h1 h2; omega
  | succ fuel ih =>
      intro j v u h1 h2
      rw [maxHighScan]
      rcases Nat.eq_or_lt_of_le h1 with rfl | hlt
      · refine le_trans ?_ (maxHighScan_ge p fuel (j + 1) _)
        split
        · exact le_refl _
        · exact not_lt.mp (by assumption)
      · exact ih (j + 1) _ u (by omega) (by omega)

lemma maxHighScan_attained (p : ℕ → ℚ) :
    ∀ fuel j v, maxHighScan p fuel j v = v
      ∨ ∃ u, j ≤ u ∧ u < j + fuel ∧ maxHighScan p fuel j v = p u := by
  intro fuel
  induction fuel with
  | zero => intro j v; exact Or.inl rfl
  | succ fuel ih =>
      intro j v
      rw [maxHighScan]
      by_cases h : v < p j
      · rw [if_pos h]
        rcases ih (j + 1) (p j) with he | ⟨u, h1, h2, h3⟩
        · exact Or.inr ⟨j, le_refl j, by omega, he⟩
        · exact Or.inr ⟨u, by omega, by omega, h3⟩
      · rw [if_neg h]
        rcases ih (j + 1) v with he | ⟨u, h1, h2, h3⟩
        · exact Or.inl he
        · exact Or.inr ⟨u, by omega, by omega, h3⟩

lemma qgtB_false_mono {x : QF} {a b : ℚ} (h : qgtB x (some a) = false)
    (hab : a ≤ b) : qgtB x (some b) = false := by
  match x with
  | none => rfl
  | some q =>
      simp only [qgtB, decide_eq_false_iff_not, not_lt] at h ⊢
      linarith

lemma qgtB_true_elim {x : QF} {a : ℚ} (h : qgtB x (some a) = true) :
    ∃ q, x = some q ∧ a < q := by
  match x with
  | none => simp [qgtB] at h
  | some q =>
      simp only [qgtB, decide_eq_true_eq] at h
      exact ⟨q, rfl, h⟩

/-- After the loop's `max_sum` is realized as `f thr`, the final threshold's
objective value dominates every remaining candidate. -/
lemma selectMaxAux_inv (f : ℕ → QF) :
    ∀ fuel i m thr, f thr = some m →
      ∃ m', m ≤ m' ∧ f (selectMaxAux f fuel i (some m) thr) = some m'
        ∧ ∀ j, i ≤ j → j < i + fuel → qgtB (f j) (some m') = false := by
  intro fuel
  induction fuel with
  | zero =>
      intro i m thr hthr
      exact ⟨m, le_refl m, hthr, fun j h1 h2 => by omega⟩
  | succ fuel ih =>
      intro i m thr hthr
      rw [selectMaxAux]
      by_cases hup : qgtB (f i) (some m) = true
      · obtain ⟨mi, hfi, hmi⟩ := qgtB_true_elim hup
        rw [hup, if_pos rfl, hfi]
        obtain ⟨m', hm1, hm2, hm3⟩ := ih (i + 1) mi i hfi
        refine ⟨m', by linarith, hm2, fun j h1 h2 => ?_⟩
        rcases Nat.eq_or_lt_of_le h1 with rfl | hlt
        · rw [hfi]
          simp only [qgtB, decide_eq_false_iff_not, not_lt]
          linarith
        · exact hm3 j (by omega) (by omega)
      · rw [Bool.not_eq_true] at hup
        rw [hup, if_neg (by simp)]
        obtain ⟨m', hm1, hm2, hm3⟩ := ih (i + 1) m thr hthr
        refine ⟨m', hm1, hm2, fun j h1 h2 => ?_⟩
        rcases Nat.eq_or_lt_of_le h1 with rfl | hlt
        · exact qgtB_false_mono hup hm1
        · exact hm3 j (by omega) (by omega)

/-- As long as one candidate in range beats the running `max_sum`, the loop
lands on a threshold whose objective value no candidate exceeds. -/
lemma selectMaxAux_main (f : ℕ → QF) :
    ∀ fuel i m thr,
      (∃ j, i ≤ j ∧ j < i + fuel ∧ qgtB (f j) (some m) = true) →
      ∃ m', m ≤ m' ∧ f (selectMaxAux f fuel i (some m) thr) = some m'
        ∧ ∀ j, i ≤ j → j < i + fuel → qgtB (f j) (some m') = false := by
  intro fuel
  induction fuel with
  | zero =>
      intro i m thr hex
      obtain ⟨j, h1, h2, _⟩ := hex
      omega
  | succ fuel ih =>
      intro i m thr hex
      rw [selectMaxAux]
      by_cases hup : qgtB (f i) (some m) = true
      · obtain ⟨mi, hfi, hmi⟩ := qgtB_true_elim hup
        rw [hup, if_pos rfl, hfi]
        obtain ⟨m', hm1, hm2, hm3⟩ := selectMaxAux_inv f fuel (i + 1) mi i hfi
        refine ⟨m', by linarith, hm2, fun j h1 h2 => ?_⟩
        rcases Nat.eq_or_lt_of_le h1 with rfl | hlt
        · rw [hfi]
          simp only [qgtB, decide_eq_false_iff_not, not_lt]
          linarith
        · exact hm3 j (by omega) (by omega)
      · rw [Bool.not_eq_true] at hup
        rw [hup, if_neg (by simp)]
        have hex' : ∃ j, i + 1 ≤ j ∧ j < (i + 1) + fuel ∧ qgtB (f j) (some m) = true := by
          obtain ⟨j, h1, h2, h3⟩ := hex
          refine ⟨j, ?_, by omega, h3⟩
          rcases Nat.eq_or_lt_of_le h1 with rfl | hlt
          · rw [hup] at h3; cases h3
          · omega
        obtain ⟨m', hm1, hm2, hm3⟩ := ih (i + 1) m thr hex'
        refine ⟨m', hm1, hm2, fun j h1 h2 => ?_⟩
        rcases Nat.eq_or_lt_of_le h1 with rfl | hlt
        · exact qgtB_false_mono hup hm1
        · exact hm3 j (by omega) (by omega)

/-- C5: in `entropy_selection`, for every candidate `i < 255` the computed
`max_high` is exactly the maximum of `p[i+1]` together with all `p[j]` for
`j` from `i+2` through 255 (the asymmetric lookahead window), and whenever
some candidate's objective exceeds the initial `f32::MIN`, the selected
cutoff is a candidate whose objective value no candidate strictly exceeds
(the loop keeps the first maximizer of `f`). -/
theorem entropy_selection_spec :
    (∀ (p : ℕ → ℚ) (i : ℕ), i < 255 →
        (∃ j ∈ insert (i + 1) (Finset.Icc (i + 2) 255), maxHighAt p i = p j)
          ∧ ∀ j ∈ insert (i + 1) (Finset.Icc (i + 2) 255), p j ≤ maxHighAt p i)
      ∧ (∀ (f : ℕ → QF),
          (∃ i, i < 256 ∧ qgtB (f i) (some f32min) = true) →
          ∀ j < 256, qgtB (f j) (f (entropySelect f)) = false)
      ∧ (∀ (img : Image) (f : ℕ → QF),
          entropySelection img f = threshold img (entropySelect f) 255) := by
  refine ⟨fun p i hi => ⟨?_, ?_⟩, fun f hex j hj => ?_, fun img f => rfl⟩
  · unfold maxHighAt
    rw [if_pos hi]
    rcases maxHighScan_attained p (256 - (i + 2)) (i + 2) (p (i + 1)) with he | ⟨u, h1, h2, h3⟩
    · exact ⟨i + 1, by simp, he⟩
    · exact ⟨u, by simp only [Finset.mem_insert, Finset.mem_Icc]; omega, h3⟩
  · intro j hj
    unfold maxHighAt
    rw [if_pos hi]
    rcases Finset.mem_insert.mp hj with rfl | hj'
    · exact maxHighScan_ge p _ _ _
    · rw [Finset.mem_Icc] at hj'
      exact maxHighScan_le p _ _ _ j hj'.1 (by omega)
  · obtain ⟨i, hi, hgt⟩ := hex
    obtain ⟨m', _, hm2, hm3⟩ := selectMaxAux_main f 256 0 f32min 0 ⟨i, by omega, by omega, hgt⟩
    unfold entropySelect
    rw [hm2]
    exact hm3 j (by omega) (by omega)

/-- Witness for C5 at `i = 0` and the constant objective `f = some 0`. -/
theorem entropy_selection_spec_witness :
    ((0 : ℕ) < 255
        ∧ ((∃ j ∈ insert (0 + 1) (Finset.Icc (0 + 2) 255),
              maxHighAt (fun _ => (1 : ℚ)) 0 = (fun _ => (1 : ℚ)) j)
            ∧ ∀ j ∈ insert (0 + 1) (Finset.Icc (0 + 2) 255),
                (fun _ => (1 : ℚ)) j ≤ maxHighAt (fun _ => (1 : ℚ)) 0))
      ∧ ((∃ i, i < 256 ∧ qgtB ((fun _ => some (0 : ℚ)) i) (some f32min) = true)
          ∧ ∀ j < 256,
              qgtB ((fun _ => some (0 : ℚ)) j)
                ((fun _ => some (0 : ℚ)) (entropySelect (fun _ => some (0 : ℚ)))) = false) := by
  have hgt : qgtB (some (0 : ℚ)) (some f32min) = true := by
    simp only [qgtB, decide_eq_true_eq, f32min]
    norm_num
  exact ⟨⟨by omega, entropy_selection_spec.1 (fun _ => (1 : ℚ)) 0 (by omega)⟩,
    ⟨⟨0, by omega, hgt⟩,
      entropy_selection_spec.2.1 (fun _ => some (0 : ℚ)) ⟨0, by omega, hgt⟩⟩⟩

/-! ### `Image::minimum_error_selection` (lines 323–393; C6)

The objective `j` of line 381 is `log2`-based, so the loop is embedded
parametrically over the objective values; what C6 concerns — the skip
condition of line 382 — is embedded exactly over an `f32` value domain with
NaN and the infinities, with IEEE equality semantics. -/

/-- `f32` values as needed by the minimum-error skip test: finite values
(modelled exactly as rationals), the two infinities, and NaN. -/
inductive F32V where
  | fin : ℚ → F32V
  | inf : F32V
  | ninf : F32V
  | nan : F32V
deriving DecidableEq

/-- IEEE `==` on `f32`: NaN compares unequal to everything (itself
included); other values compare structurally. -/
def feq : F32V → F32V → Bool
  | .fin a, .fin b => a == b
  | .inf, .inf => true
  | .ninf, .ninf => true
  | _, _ => false

/-- IEEE `<` on `f32`: false whenever either side is NaN. -/
def fltB : F32V → F32V → Bool
  | .nan, _ => false
  | _, .nan => false
  | .ninf, .ninf => false
  | .ninf, _ => true
  | .fin _, .ninf => false
  | .fin a, .fin b => decide (a < b)
  | .fin _, .inf => true
  | .inf, _ => false

/-- The skip condition of line 382:
`j == std::f32::NAN || j == -std::f32::INFINITY`. -/
def minErrSkip (j : F32V) : Bool := feq j .nan || feq j .ninf

/-- `f32::MAX`, the initial `min_value` of line 328, exactly. -/
def f32max : ℚ := 2 ^ 128 - 2 ^ 104

/-- The selection loop of lines 346–390 over objective values `J i`:
skipped candidates (line 382) never update `min_value`/`threshold`. -/
def minErrAux (J : ℕ → F32V) : ℕ → ℕ → F32V → ℕ → ℕ
  | 0, _i, _mv, thr => thr
  | fuel + 1, i, mv, thr =>
      if minErrSkip (J i) then minErrAux J fuel (i + 1) mv thr
      else if fltB (J i) mv then minErrAux J fuel (i + 1) (J i) i
      else minErrAux J fuel (i + 1) mv thr

/-- NaN-tracking left fold modelling sequential `+=` accumulation of `f32`
terms (used by the minimum-error statistics and the fuzzy selector). -/
def qsum (l : List QF) : QF := l.foldl qadd (some 0)

/-- One entry of the normalized histogram of lines 324–326:
`x as f32 / (width * height) as f32` (NaN via `0.0 / 0` on an empty
image). -/
def merrProb (img : Image) (j : ℕ) : QF :=
  qdiv (some ((grayHist img j : ℕ) : ℚ)) (some ((img.width * img.height : ℕ) : ℚ))

/-- `p1` after candidate `i` has been processed (lines 340–347): the
cumulative probability of levels `0..=i`. -/
def merrP1 (img : Image) (i : ℕ) : QF :=
  qsum ((List.range (i + 1)).map (merrProb img))

/-- `p2` after candidate `i` (total minus prefix; with exact rationals this
is the suffix sum over `i+1..255`, and a NaN entry makes both forms NaN
simultaneously since NaN-ness of `merrProb` does not depend on `j`). -/
def merrP2 (img : Image) (i : ℕ) : QF :=
  qsum (((List.range 256).drop (i + 1)).map (merrProb img))

/-- `pi1` after candidate `i` (lines 342, 349). -/
def merrPi1 (img : Image) (i : ℕ) : QF :=
  qsum ((List.range (i + 1)).map (fun j : ℕ => qmul (some (j : ℚ)) (merrProb img j)))

/-- `pi2` after candidate `i` (suffix form, as for `merrP2`). -/
def merrPi2 (img : Image) (i : ℕ) : QF :=
  qsum (((List.range 256).drop (i + 1)).map (fun j : ℕ => qmul (some (j : ℚ)) (merrProb img j)))

/-- `u1` of lines 352–356: the division is guarded by `p1 > 0.0` (an IEEE
comparison, false on NaN), else `0.0`. -/
def merrU1 (img : Image) (i : ℕ) : QF :=
  if qgtB (merrP1 img i) (some 0) then qdiv (merrPi1 img i) (merrP1 img i) else some 0

/-- `u2` of lines 357–361. -/
def merrU2 (img : Image) (i : ℕ) : QF :=
  if qgtB (merrP2 img i) (some 0) then qdiv (merrPi2 img i) (merrP2 img i) else some 0

/-- `s1` of lines 363–370: `Σ (j - u1)² · p[j]` over `0..=i`, divided by
`p1`, the whole computation guarded by `p1 > 0.0`, else `0.0`. -/
def merrS1 (img : Image) (i : ℕ) : QF :=
  if qgtB (merrP1 img i) (some 0) then
    qdiv (qsum ((List.range (i + 1)).map (fun j : ℕ =>
        qmul (qmul (qsub (some (j : ℚ)) (merrU1 img i)) (qsub (some (j : ℚ)) (merrU1 img i)))
          (merrProb img j))))
      (merrP1 img i)
  else some 0

/-- `s2` of lines 372–379, over `i+1..255`. -/
def merrS2 (img : Image) (i : ℕ) : QF :=
  if qgtB (merrP2 img i) (some 0) then
    qdiv (qsum (((List.range 256).drop (i + 1)).map (fun j : ℕ =>
        qmul (qmul (qsub (some (j : ℚ)) (merrU2 img i)) (qsub (some (j : ℚ)) (merrU2 img i)))
          (merrProb img j))))
      (merrP2 img i)
  else some 0

/-- `Image::minimum_error_selection` (lines 323–393).  The class
probabilities, means and variances of lines 340–379 are embedded exactly
above; the objective of line 381 combines `p1, s1, p2, s2` through
`f32::log2`, which has no exact rational model (its value can be `±∞` or
NaN), so that final combination is abstracted as `obj`. -/
def minimumErrorSelection (img : Image) (obj : QF → QF → QF → QF → F32V) : Image :=
  threshold img
    (minErrAux (fun i => obj (merrP1 img i) (merrS1 img i) (merrP2 img i) (merrS2 img i))
      256 0 (.fin f32max) 0) 255

/-- C6: the skip condition of `minimum_error_selection` is true exactly on
a `-∞` objective — in particular a NaN objective is never skipped, because
the IEEE equality comparison with NaN is never true. -/
theorem minimum_error_skip_spec :
    (∀ v : F32V, minErrSkip v = true ↔ v = F32V.ninf)
      ∧ minErrSkip F32V.nan = false := by
  constructor
  · intro v
    cases v <;> simp [minErrSkip, feq]
  · rfl

/-! ### `Image::mean_iterative_selection` (lines 233–270; C7, part of C9) -/

/-- The weighted sum `Σ i·hist[i]` of lines 239–242. -/
def grayTotalW (img : Image) : ℚ :=
  ∑ i ∈ Finset.range 256, (i : ℚ) * (grayHist img i : ℚ)

/-- The total count `Σ hist[i]` of lines 239–242. -/
def grayCount (img : Image) : ℕ :=
  ∑ i ∈ Finset.range 256, grayHist img i

/-- The initial mean of line 244: `mean /= count as f32` (NaN on an empty
image, where the division is `0.0 / 0`). -/
def meanInit (img : Image) : QF :=
  qdiv (some (grayTotalW img)) (some ((grayCount img : ℕ) : ℚ))

/-- Low-class weighted sum at (finite) mean `m` (lines 252–260; the split
comparison of line 253 is `(i as f32) < mean`). -/
def lowW (img : Image) (m : ℚ) : ℚ :=
  ∑ i ∈ (Finset.range 256).filter (fun i : ℕ => (i : ℚ) < m), (i : ℚ) * (grayHist img i : ℚ)

/-- Low-class count at mean `m`. -/
def lowC (img : Image) (m : ℚ) : ℕ :=
  ∑ i ∈ (Finset.range 256).filter (fun i : ℕ => (i : ℚ) < m), grayHist img i

/-- High-class weighted sum at mean `m` (the `else` branch of line 256). -/
def highW (img : Image) (m : ℚ) : ℚ :=
  ∑ i ∈ (Finset.range 256).filter (fun i : ℕ => ¬ (i : ℚ) < m), (i : ℚ) * (grayHist img i : ℚ)

/-- High-class count at mean `m`. -/
def highC (img : Image) (m : ℚ) : ℕ :=
  ∑ i ∈ (Finset.range 256).filter (fun i : ℕ => ¬ (i : ℚ) < m), grayHist img i

/-- The loop body of lines 246–267 at a finite mean `m`:
`(low_mean + high_mean) / 2.0`, each class mean a (possibly `0.0 / 0`,
hence NaN) division. -/
def stepMean (img : Image) (m : ℚ) : QF :=
  qdiv (qadd (qdiv (some (lowW img m)) (some ((lowC img m : ℕ) : ℚ)))
             (qdiv (some (highW img m)) (some ((highC img m : ℕ) : ℚ))))
    (some 2)

/-- The loop body on a NaN-or-finite mean.  With a NaN mean every
comparison `(i as f32) < mean` is false, so the low class is empty and
`low_mean = 0.0 / 0 = NaN`, making the new mean NaN again. -/
def stepMeanF (img : Image) : QF → QF
  | none => none
  | some m => stepMean img m

/-- The loop condition of line 246: `(mean - prev_mean).abs() > 0.01`
(false whenever either value is NaN). -/
def meanCond (mean prev : QF) : Bool :=
  qgtB (qabs (qsub mean prev)) (some (1 / 100))

/-- The `while` loop of lines 246–267 with fuel: returns the final mean, or
`none` when the fuel is exhausted with the condition still true. -/
def meanLoop (img : Image) : ℕ → QF → QF → Option QF
  | 0, prev, mean => if meanCond mean prev then none else some mean
  | fuel + 1, prev, mean =>
      if meanCond mean prev then meanLoop img fuel mean (stepMeanF img mean)
      else some mean

/-- `Image::mean_iterative_selection` (lines 233–270) with fuel:
`threshold((mean as u8, 255))` on the final mean. -/
def meanIterativeSelection (img : Image) (fuel : ℕ) : Option Image :=
  (meanLoop img fuel (some 0) (meanInit img)).map fun m =>
    threshold img (u8castQF m) 255

/-- The successive means the loop would compute. -/
def meanSeq (img : Image) : ℕ → QF
  | 0 => meanInit img
  | k + 1 => stepMeanF img (meanSeq img k)

/-- The `prev_mean` value paired with `meanSeq` at each check. -/
def prevSeq (img : Image) : ℕ → QF
  | 0 => some 0
  | k + 1 => meanSeq img k

/-- The loop condition at check `k`. -/
def condAt (img : Image) (k : ℕ) : Bool :=
  meanCond (meanSeq img k) (prevSeq img k)

/-! ### `Image::fuzzy_minimum_error_selection` (lines 395–453; part of C9)

`Self::shannon` (lines 454–460) is `log2`-based, so it is abstracted as a
parameter `sh`; everything else is embedded exactly. -/

/-- The grayscale `min` of the scan at lines 400–412. -/
def fuzzyMin (img : Image) : ℕ := (minMaxScan (grayHist img) 256 0 255 0).1

/-- The grayscale `max` of the scan at lines 400–412. -/
def fuzzyMax (img : Image) : ℕ := (minMaxScan (grayHist img) 256 0 255 0).2

/-- `mu0` of lines 417–423 (NaN via `0.0 / 0` on an empty class). -/
def fuzzyMu0 (img : Image) (t : ℕ) : QF :=
  qdiv (some (∑ i ∈ Finset.range (t + 1), (i : ℚ) * (grayHist img i : ℚ)))
       (some ((∑ i ∈ Finset.range (t + 1), grayHist img i : ℕ) : ℚ))

/-- `mu1` of lines 425–431. -/
def fuzzyMu1 (img : Image) (t : ℕ) : QF :=
  qdiv (some (∑ i ∈ Finset.Ico (t + 1) 256, (i : ℚ) * (grayHist img i : ℚ)))
       (some ((∑ i ∈ Finset.Ico (t + 1) 256, grayHist img i : ℕ) : ℚ))

/-- One `e +=` term of lines 434–442:
`shannon(c / (c + |i - mu|)) * histogram[i]`. -/
def fuzzyTerm (sh : QF → QF) (h : ℕ → ℕ) (c : ℕ) (mu : QF) (i : ℕ) : QF :=
  qmul (sh (qdiv (some (c : ℚ))
      (qadd (some (c : ℚ)) (qabs (qsub (some (i : ℚ)) mu)))))
    (some ((h i : ℕ) : ℚ))

/-- The fuzzy error of candidate `t` (lines 416–444), normalized by the
pixel count. -/
def fuzzyE (img : Image) (sh : QF → QF) (c t : ℕ) : QF :=
  qdiv (qsum ((List.range (t + 1)).map (fuzzyTerm sh (grayHist img) c (fuzzyMu0 img t))
      ++ ((List.range 256).drop (t + 1)).map (fuzzyTerm sh (grayHist img) c (fuzzyMu1 img t))))
    (some ((img.width * img.height : ℕ) : ℚ))

/-- The candidate loop `for t in 0..255` of lines 416–450. -/
def fuzzySelAux (E : ℕ → QF) : ℕ → ℕ → QF → ℕ → ℕ
  | 0, _t, _me, thr => thr
  | fuel + 1, t, me, thr =>
      if qltB (E t) me then fuzzySelAux E fuel (t + 1) (E t) t
      else fuzzySelAux E fuel (t + 1) me thr

/-- `Image::fuzzy_minimum_error_selection` (lines 395–453), parametric over
`Self::shannon`.  The `usize` computation `c = max - min` of line 414 is
checked: it underflows (`none`) exactly when no gray level has a nonzero
count, i.e. on a zero-pixel image. -/
def fuzzyMinimumErrorSelection (img : Image) (sh : QF → QF) : Option Image :=
  (csub (fuzzyMax img) (fuzzyMin img)).map fun c =>
    threshold img (fuzzySelAux (fuzzyE img sh c) 255 0 (some f32max) 0) 255

/-- If some check within the fuel fails the condition, the loop exits with
one of the computed means. -/
lemma meanLoop_exit (img : Image) :
    ∀ fuel j, (∃ k, k ≤ fuel ∧ condAt img (j + k) = false) →
      ∃ k, k ≤ fuel ∧ condAt img (j + k) = false
        ∧ meanLoop img fuel (prevSeq img j) (meanSeq img j)
            = some (meanSeq img (j + k)) := by
  intro fuel
  induction fuel with
  | zero =>
      intro j hex
      obtain ⟨k, hk, hc⟩ := hex
      have hk0 : k = 0 := by omega
      subst hk0
      have hc' : meanCond (meanSeq img j) (prevSeq img j) = false := by
        simpa [condAt] using hc
      refine ⟨0, le_refl 0, hc, ?_⟩
      rw [meanLoop, if_neg (by simp [hc'])]
      simp
  | succ fuel ih =>
      intro j hex
      by_cases hc0 : condAt img j = false
      · refine ⟨0, Nat.zero_le _, by simpa using hc0, ?_⟩
        rw [meanLoop, if_neg (by simpa [condAt] using hc0)]
        simp
      · have hc0' : meanCond (meanSeq img j) (prevSeq img j) = true := by
          simpa [condAt] using hc0
        obtain ⟨k, hk, hck⟩ := hex
        have hkpos : k ≠ 0 := by
          intro h
          subst h
          simp only [Nat.add_zero] at hck
          exact hc0 hck
        have hex' : ∃ k', k' ≤ fuel ∧ condAt img ((j + 1) + k') = false :=
          ⟨k - 1, by omega, by rw [show (j + 1) + (k - 1) = j + k by omega]; exact hck⟩
        obtain ⟨k', hk', hck', hres⟩ := ih (j + 1) hex'
        refine ⟨k' + 1, by omega, by rw [show j + (k' + 1) = (j + 1) + k' by omega]; exact hck', ?_⟩
        rw [meanLoop, if_pos hc0']
        rw [show j + (k' + 1) = (j + 1) + k' by omega]
        rw [← hres]
        rfl

/-! ### C9: degenerate inputs fault-freedom -/

lemma cdfMinAux_le_init (hist : ℕ → ℕ) :
    ∀ fuel i sum m, cdfMinAux hist fuel i sum m ≤ m := by
  intro fuel
  induction fuel with
  | zero => intro i sum m; exact le_refl m
  | succ fuel ih =>
      intro i sum m
      rw [cdfMinAux]
      exact le_trans (ih _ _ _) (by split <;> omega)

lemma cdfMinAux_le_cum (hist : ℕ → ℕ) :
    ∀ fuel i sum m v, i ≤ v → v < i + fuel →
      cdfMinAux hist fuel i sum m ≤ sum + ∑ j ∈ Finset.Ico i (v + 1), hist j := by
  intro fuel
  induction fuel with
  | zero => intro i sum m v h1 h2; omega
  | succ fuel ih =>
      intro i sum m v h1 h2
      rw [cdfMinAux]
      rcases Nat.eq_or_lt_of_le h1 with rfl | hlt
      · have hs : ∑ j ∈ Finset.Ico i (i + 1), hist j = hist i := by
          simp
        have := cdfMinAux_le_init hist fuel (i + 1) (sum + hist i)
          (if sum + hist i < m then sum + hist i else m)
        rw [hs]
        exact le_trans this (by split <;> omega)
      · have hsplit : ∑ j ∈ Finset.Ico i (v + 1), hist j
            = hist i + ∑ j ∈ Finset.Ico (i + 1) (v + 1), hist j := by
          rw [← Finset.sum_eq_sum_Ico_succ_bot (by omega : i < v + 1)]
        have := ih (i + 1) (sum + hist i)
          (if sum + hist i < m then sum + hist i else m) v (by omega) (by omega)
        omega

lemma minCdf_le_cdfAt (img : Image) (c v : ℕ) (hv256 : v < 256) :
    minCdf img c ≤ cdfAt img c v := by
  have h := cdfMinAux_le_cum (chanHist img c) 256 0 0 (2 ^ 32 - 1) v
    (Nat.zero_le v) (by omega)
  unfold minCdf cdfAt
  rw [Finset.range_eq_Ico]
  omega

lemma minCdf_le_pixels (img : Image) (hv : img.Valid) (c : ℕ) :
    minCdf img c ≤ img.width * img.height := by
  have h1 := minCdf_le_cdfAt img c 255 (by omega)
  have h2 : cdfAt img c 255 = img.width * img.height := by
    unfold cdfAt
    exact chanHist_sum img hv c
  omega

/-- `get_equalized_image` completes on every valid image, degenerate ones
included: both `u32` subtractions are in range, and the single possible
zero divisor (`pixels - min = 0`) is a float division producing NaN, not a
fault. -/
lemma equalize_total (img : Image) (hv : img.Valid) :
    ∃ out, getEqualizedImage img = some out := by
  have hl : img.data.length = 4 * (img.width * img.height) :=
    hv.1.trans (Nat.mul_assoc 4 _ _)
  have hval : ∀ c v, v < 256 →
      equalizeVal img c v
        = some (u8castQF (qround (qmul (qdiv
            (some ((cdfAt img c v - minCdf img c : ℕ) : ℚ))
            (some ((img.width * img.height - minCdf img c : ℕ) : ℚ))) (some 255)))) := by
    intro c v hv256
    unfold equalizeVal csub
    rw [if_pos (minCdf_le_cdfAt img c v hv256), if_pos (minCdf_le_pixels img hv c)]
    rfl
  have hbytes : ∀ p ∈ chunks4 img.data, p.1 < 256 ∧ p.2.1 < 256 ∧ p.2.2.1 < 256 := by
    intro p hp
    obtain ⟨h1, h2, h3, _⟩ := mem_chunks4 img.data _ hl p hp
    exact ⟨hv.2 _ h1, hv.2 _ h2, hv.2 _ h3⟩
  have hsome := chanMapOpt_eq_some (equalizeVal img)
    (fun c v => u8castQF (qround (qmul (qdiv
        (some ((cdfAt img c v - minCdf img c : ℕ) : ℚ))
        (some ((img.width * img.height - minCdf img c : ℕ) : ℚ))) (some 255))))
    (img.width * img.height) img.data hl ?_
  · exact ⟨_, by rw [getEqualizedImage, hsome]; rfl⟩
  · intro p hp
    obtain ⟨h1, h2, h3⟩ := hbytes p hp
    exact ⟨hval 0 _ h1, hval 1 _ h2, hval 2 _ h3⟩

/-- A mean-iteration step with an empty class produces a NaN mean (the
class mean is `0.0 / 0`). -/
lemma stepMean_none_of_empty (img : Image) (m : ℚ)
    (h : lowC img m = 0 ∨ highC img m = 0) : stepMean img m = none := by
  unfold stepMean
  rcases h with h | h <;>
    simp [h, qdiv, qadd]

/-- The loop condition is false at a NaN mean (every IEEE comparison with
NaN is false), so the loop stops right after a degenerate split. -/
lemma condAt_false_of_none (img : Image) (k : ℕ) (h : meanSeq img k = none) :
    condAt img k = false := by
  unfold condAt meanCond
  rw [h]
  rfl

/-- `mean_iterative_selection` runs to completion when some reached
iteration has an empty below-mean or at-or-above-mean class. -/
lemma meanIter_completes_of_empty_class (img : Image) (k : ℕ) (m : ℚ)
    (hm : meanSeq img k = some m) (hc : condAt img k = true)
    (hdeg : lowC img m = 0 ∨ highC img m = 0) :
    ∀ fuel, k + 1 ≤ fuel → ∃ r, meanLoop img fuel (some 0) (meanInit img) = some r := by
  intro fuel hfuel
  have hnext : meanSeq img (k + 1) = none := by
    rw [meanSeq, hm]
    exact stepMean_none_of_empty img m hdeg
  have hcond : condAt img (k + 1) = false := condAt_false_of_none img _ hnext
  obtain ⟨k', _, _, hres⟩ := meanLoop_exit img fuel 0 ⟨k + 1, by omega, by simpa using hcond⟩
  exact ⟨_, by simpa [meanSeq, prevSeq] using hres⟩

lemma minMaxScan_zero (hist : ℕ → ℕ) (hz : ∀ i, hist i = 0) :
    ∀ fuel i m M, minMaxScan hist fuel i m M = (m, M) := by
  intro fuel
  induction fuel with
  | zero => intro i m M; rfl
  | succ fuel ih =>
      intro i m M
      rw [minMaxScan, if_neg (by simp [hz i])]
      exact ih (i + 1) m M

/-- On a zero-pixel valid image the buffer is empty, so every grayscale
histogram bucket is zero. -/
lemma grayHist_zero_of_empty (img : Image) (hv : img.Valid)
    (hwh : img.width * img.height = 0) : ∀ v, grayHist img v = 0 := by
  intro v
  have hlen : img.data.length = 0 := by
    have h4 : img.data.length = 4 * (img.width * img.height) :=
      hv.1.trans (Nat.mul_assoc 4 _ _)
    omega
  rcases List.length_eq_zero.mp hlen with he
  unfold grayHist
  rw [he]
  rfl

/-- Every occurring grayscale level lies between the fuzzy scan's min and
max, so on a non-empty image `min ≤ max`. -/
lemma fuzzyMin_le_fuzzyMax (img : Image) (hv : img.Valid)
    (hne : img.width * img.height ≠ 0) : fuzzyMin img ≤ fuzzyMax img := by
  have hl : img.data.length = 4 * (img.width * img.height) :=
    hv.1.trans (Nat.mul_assoc 4 _ _)
  have hne' : chunks4 img.data ≠ [] := by
    have hlen := chunks4_length img.data _ hl
    intro he
    rw [he] at hlen
    simp only [List.length_nil] at hlen
    omega
  obtain ⟨p, hp⟩ := List.exists_mem_of_ne_nil _ hne'
  have hcount : 0 < grayHist img (grayLum p.1 p.2.1 p.2.2.1) := by
    unfold grayHist
    exact List.count_pos_iff.mpr (List.mem_map.mpr ⟨p, hp, rfl⟩)
  have hb := minMaxScan_bound (grayHist img) 256 0 255 0 (grayLum p.1 p.2.1 p.2.2.1)
    (Nat.zero_le _) (by have := grayLum_lt p.1 p.2.1 p.2.2.1; omega) hcount
  unfold fuzzyMin fuzzyMax
  omega

lemma foldl_qadd_some (l : List QF) :
    ∀ acc : ℚ, (∀ x ∈ l, ∃ q : ℚ, x = some q) →
      ∃ r : ℚ, l.foldl qadd (some acc) = some r := by
  induction l with
  | nil => intro acc _; exact ⟨acc, rfl⟩
  | cons x xs ih =>
      intro acc hall
      obtain ⟨q, rfl⟩ := hall x (by simp)
      exact ih (acc + q) (fun y hy => hall y (by simp [hy]))

lemma qsum_some (l : List QF) (hall : ∀ x ∈ l, ∃ q : ℚ, x = some q) :
    ∃ r : ℚ, qsum l = some r :=
  foldl_qadd_some l 0 hall

lemma foldl_qadd_none (l : List QF) : ∀ acc : QF, acc = none → l.foldl qadd acc = none := by
  induction l with
  | nil => intro acc h; exact h
  | cons x xs ih =>
      intro acc h
      subst h
      exact ih (qadd none x) (by cases x <;> rfl)

lemma foldl_qadd_mem_none (l : List QF) :
    ∀ acc : QF, none ∈ l → l.foldl qadd acc = none := by
  induction l with
  | nil => intro acc h; cases h
  | cons y ys ih =>
      intro acc h
      rcases List.mem_cons.mp h with rfl | hmem
      · show ys.foldl qadd (qadd acc none) = none
        exact foldl_qadd_none ys _ (by cases acc <;> rfl)
      · exact ih (qadd acc y) hmem

lemma qsum_none (l : List QF) (hx : none ∈ l) : qsum l = none :=
  foldl_qadd_mem_none l (some 0) hx

/-- Either every normalized-histogram entry is a finite rational (non-empty
image) or every entry is NaN (zero-pixel image, `0.0 / 0`). -/
lemma merrProb_cases (img : Image) :
    (∀ j, ∃ q : ℚ, merrProb img j = some q) ∨ (∀ j, merrProb img j = none) := by
  by_cases h : ((img.width * img.height : ℕ) : ℚ) = 0
  · right
    intro j
    simp only [merrProb, qdiv]
    rw [if_pos h]
  · left
    intro j
    exact ⟨_, by simp only [merrProb, qdiv]; rw [if_neg h]⟩

/-- The guarded class statistics of `minimum_error_selection` are defined
(finite, non-NaN) at every candidate of every image: an empty class fails
the `p > 0.0` guard and takes the literal `0.0`, so the class-statistic
divisions never fault. -/
lemma merr_stats_defined (img : Image) (i : ℕ) :
    (∃ q : ℚ, merrU1 img i = some q) ∧ (∃ q : ℚ, merrS1 img i = some q)
      ∧ (∃ q : ℚ, merrU2 img i = some q) ∧ (∃ q : ℚ, merrS2 img i = some q) := by
  have hlow : qgtB (merrP1 img i) (some 0) = true →
      (∃ p : ℚ, merrP1 img i = some p ∧ 0 < p) ∧ ∀ j, ∃ q : ℚ, merrProb img j = some q := by
    intro hg
    obtain ⟨p, hp, hpos⟩ := qgtB_true_elim hg
    refine ⟨⟨p, hp, hpos⟩, ?_⟩
    rcases merrProb_cases img with hs | hn
    · exact hs
    · exfalso
      have hmem : (none : QF) ∈ (List.range (i + 1)).map (merrProb img) :=
        List.mem_map.mpr ⟨0, by simp, hn 0⟩
      have := qsum_none _ hmem
      rw [show qsum ((List.range (i + 1)).map (merrProb img)) = merrP1 img i from rfl] at this
      rw [this] at hp
      cases hp
  have hhigh : qgtB (merrP2 img i) (some 0) = true →
      (∃ p : ℚ, merrP2 img i = some p ∧ 0 < p) ∧ ∀ j, ∃ q : ℚ, merrProb img j = some q := by
    intro hg
    obtain ⟨p, hp, hpos⟩ := qgtB_true_elim hg
    refine ⟨⟨p, hp, hpos⟩, ?_⟩
    rcases merrProb_cases img with hs | hn
    · exact hs
    · exfalso
      rcases hdrop : (List.range 256).drop (i + 1) with _ | ⟨x, xs⟩
      · have : merrP2 img i = some 0 := by
          unfold merrP2
          rw [hdrop]
          rfl
        rw [this] at hg
        simp [qgtB] at hg
      · have hmem : (none : QF) ∈ ((List.range 256).drop (i + 1)).map (merrProb img) := by
          rw [hdrop]
          exact List.mem_map.mpr ⟨x, by simp, hn x⟩
        have := qsum_none _ hmem
        rw [show qsum (((List.range 256).drop (i + 1)).map (merrProb img)) = merrP2 img i from rfl] at this
        rw [this] at hp
        cases hp
  have hu1 : ∃ q : ℚ, merrU1 img i = some q := by
    unfold merrU1
    by_cases hg : qgtB (merrP1 img i) (some 0) = true
    · rw [if_pos hg]
      obtain ⟨⟨p, hp, hpos⟩, hs⟩ := hlow hg
      obtain ⟨n, hn⟩ := qsum_some ((List.range (i + 1)).map
          (fun j : ℕ => qmul (some (j : ℚ)) (merrProb img j))) (by
        intro x hxm
        obtain ⟨j, _, rfl⟩ := List.mem_map.mp hxm
        obtain ⟨q, hq⟩ := hs j
        exact ⟨j * q, by rw [hq]; rfl⟩)
      rw [show qsum ((List.range (i + 1)).map
          (fun j : ℕ => qmul (some (j : ℚ)) (merrProb img j))) = merrPi1 img i from rfl] at hn
      rw [hn, hp]
      exact ⟨n / p, by simp [qdiv, ne_of_gt hpos]⟩
    · rw [if_neg hg]
      exact ⟨0, rfl⟩
  have hu2 : ∃ q : ℚ, merrU2 img i = some q := by
    unfold merrU2
    by_cases hg : qgtB (merrP2 img i) (some 0) = true
    · rw [if_pos hg]
      obtain ⟨⟨p, hp, hpos⟩, hs⟩ := hhigh hg
      obtain ⟨n, hn⟩ := qsum_some (((List.range 256).drop (i + 1)).map
          (fun j : ℕ => qmul (some (j : ℚ)) (merrProb img j))) (by
        intro x hxm
        obtain ⟨j, _, rfl⟩ := List.mem_map.mp hxm
        obtain ⟨q, hq⟩ := hs j
        exact ⟨j * q, by rw [hq]; rfl⟩)
      rw [show qsum (((List.range 256).drop (i + 1)).map
          (fun j : ℕ => qmul (some (j : ℚ)) (merrProb img j))) = merrPi2 img i from rfl] at hn
      rw [hn, hp]
      exact ⟨n / p, by simp [qdiv, ne_of_gt hpos]⟩
    · rw [if_neg hg]
      exact ⟨0, rfl⟩
  refine ⟨hu1, ?_, hu2, ?_⟩
  · unfold merrS1
    by_cases hg : qgtB (merrP1 img i) (some 0) = true
    · rw [if_pos hg]
      obtain ⟨⟨p, hp, hpos⟩, hs⟩ := hlow hg
      obtain ⟨u, hu⟩ := hu1
      obtain ⟨n, hn⟩ := qsum_some ((List.range (i + 1)).map
          (fun j : ℕ => qmul (qmul (qsub (some (j : ℚ)) (merrU1 img i))
            (qsub (some (j : ℚ)) (merrU1 img i))) (merrProb img j))) (by
        intro x hxm
        obtain ⟨j, _, rfl⟩ := List.mem_map.mp hxm
        obtain ⟨q, hq⟩ := hs j
        exact ⟨(j - u) * (j - u) * q, by rw [hq, hu]; rfl⟩)
      rw [hn, hp]
      exact ⟨n / p, by simp [qdiv, ne_of_gt hpos]⟩
    · rw [if_neg hg]
      exact ⟨0, rfl⟩
  · unfold merrS2
    by_cases hg : qgtB (merrP2 img i) (some 0) = true
    · rw [if_pos hg]
      obtain ⟨⟨p, hp, hpos⟩, hs⟩ := hhigh hg
      obtain ⟨u, hu⟩ := hu2
      obtain ⟨n, hn⟩ := qsum_some (((List.range 256).drop (i + 1)).map
          (fun j : ℕ => qmul (qmul (qsub (some (j : ℚ)) (merrU2 img i))
            (qsub (some (j : ℚ)) (merrU2 img i))) (merrProb img j))) (by
        intro x hxm
        obtain ⟨j, _, rfl⟩ := List.mem_map.mp hxm
        obtain ⟨q, hq⟩ := hs j
        exact ⟨(j - u) * (j - u) * q, by rw [hq, hu]; rfl⟩)
      rw [hn, hp]
      exact ⟨n / p, by simp [qdiv, ne_of_gt hpos]⟩
    · rw [if_neg hg]
      exact ⟨0, rfl⟩

/-- An empty low class (guard false, NaN included) takes the literal `0.0`
values of lines 354 and 363. -/
lemma merr_stats_guard_false_low (img : Image) (i : ℕ)
    (hg : qgtB (merrP1 img i) (some 0) = false) :
    merrU1 img i = some 0 ∧ merrS1 img i = some 0 := by
  unfold merrU1 merrS1
  rw [if_neg (by simp [hg]), if_neg (by simp [hg])]
  exact ⟨rfl, rfl⟩

/-- An empty high class takes the literal `0.0` values of lines 359 and
372. -/
lemma merr_stats_guard_false_high (img : Image) (i : ℕ)
    (hg : qgtB (merrP2 img i) (some 0) = false) :
    merrU2 img i = some 0 ∧ merrS2 img i = some 0 := by
  unfold merrU2 merrS2
  rw [if_neg (by simp [hg]), if_neg (by simp [hg])]
  exact ⟨rfl, rfl⟩

/-- On a zero-pixel image the initial mean of `mean_iterative_selection`
is `0.0 / 0 = NaN`. -/
lemma meanInit_none_of_empty (img : Image) (hv : img.Valid)
    (hwh : img.width * img.height = 0) : meanInit img = none := by
  have hz := grayHist_zero_of_empty img hv hwh
  have hc : grayCount img = 0 := by
    unfold grayCount
    exact Finset.sum_eq_zero (fun i _ => hz i)
  unfold meanInit
  rw [hc]
  simp [qdiv]

/-- C9 (amended): on every degenerate input — zero-size image, constant
channel in `stretch`, empty class in the mean-iterative, minimum-error or
fuzzy minimum-error split — the operation raises no exception and runs to
completion, silently letting the `0.0/0 = NaN` divisions (or the guarded
`0.0` literals of the minimum-error statistics) stand in for real values;
the one exception forced by the code is `fuzzy_minimum_error_selection` on
a zero-pixel image, where the `usize` subtraction `max - min = 0 - 255`
underflows (an arithmetic program error: a panic in debug builds, a wrap
in release builds), while on non-empty images it too completes. -/
theorem degenerate_inputs_spec :
    (∀ img : Image, img.Valid → ∃ out, getEqualizedImage img = some out)
      ∧ (∀ img : Image, img.Valid → ∃ out, getStretchedImage img = some out)
      ∧ (∀ (img : Image) (k : ℕ) (m : ℚ),
          meanSeq img k = some m → condAt img k = true →
          lowC img m = 0 ∨ highC img m = 0 →
          ∀ fuel, k + 1 ≤ fuel →
            ∃ r, meanLoop img fuel (some 0) (meanInit img) = some r)
      ∧ (∀ (img : Image) (fuel : ℕ), img.Valid → img.width * img.height = 0 →
          meanLoop img fuel (some 0) (meanInit img) = some none
            ∧ meanIterativeSelection img fuel = some (threshold img 0 255))
      ∧ (∀ (img : Image) (i : ℕ),
          ((∃ q : ℚ, merrU1 img i = some q) ∧ (∃ q : ℚ, merrS1 img i = some q)
            ∧ (∃ q : ℚ, merrU2 img i = some q) ∧ (∃ q : ℚ, merrS2 img i = some q))
            ∧ (qgtB (merrP1 img i) (some 0) = false →
                merrU1 img i = some 0 ∧ merrS1 img i = some 0)
            ∧ (qgtB (merrP2 img i) (some 0) = false →
                merrU2 img i = some 0 ∧ merrS2 img i = some 0))
      ∧ (∀ (img : Image) (sh : QF → QF), img.Valid → img.width * img.height ≠ 0 →
          ∃ out, fuzzyMinimumErrorSelection img sh = some out)
      ∧ (∀ (img : Image) (sh : QF → QF), img.Valid → img.width * img.height = 0 →
          fuzzyMinimumErrorSelection img sh = none) := by
  refine ⟨fun img hv => equalize_total img hv, ?_, ?_, ?_, ?_, ?_, ?_⟩
  · intro img hv
    by_cases hne : img.width * img.height = 0
    · have hlen : img.data.length = 0 := by
        have h4 : img.data.length = 4 * (img.width * img.height) :=
          hv.1.trans (Nat.mul_assoc 4 _ _)
        omega
      rcases List.length_eq_zero.mp hlen with he
      refine ⟨⟨img.width, img.height, []⟩, ?_⟩
      rw [getStretchedImage, he]
      rfl
    · have hl : img.data.length = 4 * (img.width * img.height) :=
        hv.1.trans (Nat.mul_assoc 4 _ _)
      have hminmax : ∀ c < 3, chanMin img c ≤ chanMax img c := by
        intro c hc
        have hne' : chunks4 img.data ≠ [] := by
          have hlen := chunks4_length img.data _ hl
          intro he
          rw [he] at hlen
          simp only [List.length_nil] at hlen
          omega
        obtain ⟨p, hp⟩ := List.exists_mem_of_ne_nil _ hne'
        have := chanMinMax_of_mem img hv c hc p hp
        omega
      have hsome := chanMapOpt_eq_some (stretchVal img)
        (fun c v => u8castQF (qmul (qdiv (some ((v - chanMin img c : ℕ) : ℚ))
            (some ((chanMax img c - chanMin img c : ℕ) : ℚ))) (some 255)))
        (img.width * img.height) img.data hl ?_
      · exact ⟨_, by rw [getStretchedImage, hsome]; rfl⟩
      · intro p hp
        refine ⟨?_, ?_, ?_⟩
        · obtain ⟨hmin, _⟩ := chanMinMax_of_mem img hv 0 (by omega) p hp
          simp only [comp] at hmin
          unfold stretchVal csub
          rw [if_pos hmin, if_pos (hminmax 0 (by omega))]
          rfl
        · obtain ⟨hmin, _⟩ := chanMinMax_of_mem img hv 1 (by omega) p hp
          simp only [comp] at hmin
          unfold stretchVal csub
          rw [if_pos hmin, if_pos (hminmax 1 (by omega))]
          rfl
        · obtain ⟨hmin, _⟩ := chanMinMax_of_mem img hv 2 (by omega) p hp
          simp only [comp] at hmin
          unfold stretchVal csub
          rw [if_pos hmin, if_pos (hminmax 2 (by omega))]
          rfl
  · exact fun img k m hm hc hdeg => meanIter_completes_of_empty_class img k m hm hc hdeg
  · intro img fuel hv hwh
    have hmi := meanInit_none_of_empty img hv hwh
    have hloop : meanLoop img fuel (some 0) (meanInit img) = some none := by
      rw [hmi]
      cases fuel with
      | zero => rfl
      | succ f => rfl
    refine ⟨hloop, ?_⟩
    rw [meanIterativeSelection, hloop]
    rfl
  · intro img i
    exact ⟨merr_stats_defined img i,
      merr_stats_guard_false_low img i, merr_stats_guard_false_high img i⟩
  · intro img sh hv hne
    unfold fuzzyMinimumErrorSelection csub
    rw [if_pos (fuzzyMin_le_fuzzyMax img hv hne)]
    exact ⟨_, rfl⟩
  · intro img sh hv hwh
    have hz := grayHist_zero_of_empty img hv hwh
    unfold fuzzyMinimumErrorSelection fuzzyMin fuzzyMax
    rw [minMaxScan_zero (grayHist img) hz 256 0 255 0]
    rfl

set_option maxRecDepth 4000 in
/-- C9 counterexample: the claim as stated is false on the code —
`fuzzy_minimum_error_selection` on the (degenerate) zero-pixel image does
not run to completion cleanly: its `usize` subtraction `max - min`
computes `0 - 255` and underflows. -/
theorem fuzzy_empty_image_counterexample :
    fuzzyMinimumErrorSelection ⟨0, 0, []⟩ (fun _ => some 0) = none := by
  decide

/-- Singleton-count weighted sum, for concrete mean evaluations. -/
lemma sum_mul_count_singleton (a : ℕ) (ha : a < 256) :
    (∑ i ∈ Finset.range 256, (i : ℚ) * ((List.count i [a] : ℕ) : ℚ)) = a := by
  have hc : ∀ i : ℕ, List.count i [a] = if i = a then 1 else 0 := by
    intro i
    by_cases h : i = a <;> simp [h, List.count_cons]
  rw [Finset.sum_congr rfl (fun i _ => by rw [hc i])]
  rw [Finset.sum_congr rfl (fun i _ => ?_)]
  · rw [Finset.sum_ite_eq' (Finset.range 256) a (fun i => (i : ℚ))]
    simp [ha]
  · rw [show (((if i = a then 1 else 0 : ℕ) : ℚ)) = if i = a then (1 : ℚ) else 0 by
      split <;> simp]
    rw [mul_ite, mul_one, mul_zero]

set_option maxRecDepth 4000 in
lemma meanInit_single : meanInit ⟨1, 1, [100, 100, 100, 255]⟩ = some 100 := by
  have hh : grayHist ⟨1, 1, [100, 100, 100, 255]⟩ = fun v => List.count v [100] := by
    funext v
    show (List.map (fun p => grayLum p.1 p.2.1 p.2.2.1)
        (chunks4 [100, 100, 100, 255])).count v = _
    rw [show chunks4 [100, 100, 100, 255] = [(100, 100, 100, 255)] from rfl]
    simp [grayLum_eq]
  unfold meanInit grayTotalW grayCount
  rw [hh]
  rw [sum_mul_count_singleton 100 (by omega)]
  rw [show (∑ i ∈ Finset.range 256, List.count i [100]) = 1 by decide]
  simp only [qdiv, Nat.cast_one]
  rw [if_neg one_ne_zero]
  norm_num

lemma meanSeq_single_zero : meanSeq ⟨1, 1, [100, 100, 100, 255]⟩ 0 = some 100 := by
  rw [show meanSeq ⟨1, 1, [100, 100, 100, 255]⟩ 0
      = meanInit ⟨1, 1, [100, 100, 100, 255]⟩ from rfl]
  exact meanInit_single

lemma condAt_single_zero : condAt ⟨1, 1, [100, 100, 100, 255]⟩ 0 = true := by
  unfold condAt meanCond
  rw [show prevSeq ⟨1, 1, [100, 100, 100, 255]⟩ 0 = some 0 from rfl]
  rw [meanSeq_single_zero]
  simp only [qsub, qabs, qgtB, decide_eq_true_eq]
  norm_num

lemma lowC_single : lowC ⟨1, 1, [100, 100, 100, 255]⟩ 100 = 0 := by
  unfold lowC
  refine Finset.sum_eq_zero (fun i hi => ?_)
  rw [Finset.mem_filter] at hi
  have hlt : i < 100 := by exact_mod_cast hi.2
  show (List.map (fun p => grayLum p.1 p.2.1 p.2.2.1)
      (chunks4 [100, 100, 100, 255])).count i = 0
  rw [show chunks4 [100, 100, 100, 255] = [(100, 100, 100, 255)] from rfl]
  have hmap : List.map (fun p : ℕ × ℕ × ℕ × ℕ => grayLum p.1 p.2.1 p.2.2.1)
      [(100, 100, 100, 255)] = [100] := by
    simp [grayLum_eq]
  rw [hmap, List.count_eq_zero]
  simp only [List.mem_singleton]
  omega

set_option maxRecDepth 4000 in
/-- Witness for C9's amended theorem: the zero-pixel image for equalize,
the zero-pixel mean-iterative exit, the minimum-error statistics and the
fuzzy underflow, a constant 1×1 image for the non-empty cases, and a
single-level image whose first mean-iteration has an empty below-mean
class. -/
theorem degenerate_inputs_spec_witness :
    (∃ out, getEqualizedImage ⟨0, 0, []⟩ = some out)
      ∧ (∃ out, getStretchedImage ⟨1, 1, [7, 7, 7, 255]⟩ = some out)
      ∧ (∃ r, meanLoop ⟨1, 1, [100, 100, 100, 255]⟩ 1 (some 0)
            (meanInit ⟨1, 1, [100, 100, 100, 255]⟩) = some r)
      ∧ (meanLoop ⟨0, 0, []⟩ 1 (some 0) (meanInit ⟨0, 0, []⟩) = some none
          ∧ meanIterativeSelection ⟨0, 0, []⟩ 1
              = some (threshold ⟨0, 0, []⟩ 0 255))
      ∧ (((∃ q : ℚ, merrU1 ⟨0, 0, []⟩ 0 = some q)
            ∧ (∃ q : ℚ, merrS1 ⟨0, 0, []⟩ 0 = some q)
            ∧ (∃ q : ℚ, merrU2 ⟨0, 0, []⟩ 0 = some q)
            ∧ (∃ q : ℚ, merrS2 ⟨0, 0, []⟩ 0 = some q))
          ∧ (qgtB (merrP1 ⟨0, 0, []⟩ 0) (some 0) = false →
              merrU1 ⟨0, 0, []⟩ 0 = some 0 ∧ merrS1 ⟨0, 0, []⟩ 0 = some 0)
          ∧ (qgtB (merrP2 ⟨0, 0, []⟩ 0) (some 0) = false →
              merrU2 ⟨0, 0, []⟩ 0 = some 0 ∧ merrS2 ⟨0, 0, []⟩ 0 = some 0))
      ∧ (∃ out, fuzzyMinimumErrorSelection ⟨1, 1, [7, 7, 7, 255]⟩ (fun _ => some 1) = some out)
      ∧ fuzzyMinimumErrorSelection ⟨0, 0, []⟩ (fun _ => some 1) = none :=
  ⟨degenerate_inputs_spec.1 ⟨0, 0, []⟩ (by decide),
    degenerate_inputs_spec.2.1 ⟨1, 1, [7, 7, 7, 255]⟩ (by decide),
    degenerate_inputs_spec.2.2.1 ⟨1, 1, [100, 100, 100, 255]⟩ 0 100
      meanSeq_single_zero condAt_single_zero (Or.inl lowC_single) 1 (by omega),
    degenerate_inputs_spec.2.2.2.1 ⟨0, 0, []⟩ 1 (by decide) (by decide),
    degenerate_inputs_spec.2.2.2.2.1 ⟨0, 0, []⟩ 0,
    degenerate_inputs_spec.2.2.2.2.2.1 ⟨1, 1, [7, 7, 7, 255]⟩ (fun _ => some 1)
      (by decide) (by decide),
    degenerate_inputs_spec.2.2.2.2.2.2 ⟨0, 0, []⟩ (fun _ => some 1) (by decide) (by decide)⟩

/-! ### C7: termination of the mean-iterative loop

The partition of line 253 depends on the mean only through the integer
cutoff `⌈mean⌉`; the loop body is monotone in that cutoff, so the orbit of
means is monotone, the integer cutoffs stabilize within 257 steps, and two
equal consecutive cutoffs make consecutive means equal, which stops the
loop. -/

/-- The integer cutoff determined by a mean: `i < mean ↔ i < cutoff mean`
for natural `i`. -/
def cutoff (m : ℚ) : ℕ := (Int.ceil m).toNat

/-- Low-class weighted sum at integer cutoff `c`. -/
def cLW (h : ℕ → ℕ) (c : ℕ) : ℚ := ∑ i ∈ Finset.range c, (i : ℚ) * (h i : ℚ)

/-- Low-class count at integer cutoff `c`. -/
def cLC (h : ℕ → ℕ) (c : ℕ) : ℕ := ∑ i ∈ Finset.range c, h i

/-- High-class weighted sum at integer cutoff `c`. -/
def cHW (h : ℕ → ℕ) (c : ℕ) : ℚ := ∑ i ∈ Finset.Ico c 256, (i : ℚ) * (h i : ℚ)

/-- High-class count at integer cutoff `c`. -/
def cHC (h : ℕ → ℕ) (c : ℕ) : ℕ := ∑ i ∈ Finset.Ico c 256, h i

/-- The loop body as a function of the integer cutoff. -/
def stepC (h : ℕ → ℕ) (c : ℕ) : ℚ :=
  (cLW h c / (cLC h c : ℚ) + cHW h c / (cHC h c : ℚ)) / 2

lemma lt_cutoff_iff (m : ℚ) (i : ℕ) : (i : ℚ) < m ↔ i < cutoff m := by
  rw [cutoff, Int.lt_toNat, Int.lt_ceil]
  push_cast
  rfl

lemma cutoff_mono {m m' : ℚ} (h : m ≤ m') : cutoff m ≤ cutoff m' := by
  rw [cutoff, cutoff]
  exact Int.toNat_le_toNat (Int.ceil_le_ceil h)

lemma cutoff_le_256 {m : ℚ} (h : m ≤ 255) : cutoff m ≤ 256 := by
  rw [cutoff]
  have h1 : (⌈m⌉ : ℤ) ≤ 255 := by
    rw [Int.ceil_le]
    push_cast
    linarith
  omega

/-- The rational partition of the loop body coincides with the integer
cutoff partition. -/
lemma partition_eq (img : Image) (m : ℚ) (hm255 : m ≤ 255) :
    lowW img m = cLW (grayHist img) (cutoff m)
      ∧ lowC img m = cLC (grayHist img) (cutoff m)
      ∧ highW img m = cHW (grayHist img) (cutoff m)
      ∧ highC img m = cHC (grayHist img) (cutoff m) := by
  have hset : (Finset.range 256).filter (fun i : ℕ => (i : ℚ) < m)
      = Finset.range (cutoff m) := by
    ext i
    simp only [Finset.mem_filter, Finset.mem_range]
    constructor
    · intro ⟨_, h2⟩
      exact (lt_cutoff_iff m i).mp h2
    · intro h
      exact ⟨by have := cutoff_le_256 hm255; omega, (lt_cutoff_iff m i).mpr h⟩
  have hset' : (Finset.range 256).filter (fun i : ℕ => ¬ (i : ℚ) < m)
      = Finset.Ico (cutoff m) 256 := by
    ext i
    simp only [Finset.mem_filter, Finset.mem_range, Finset.mem_Ico, not_lt]
    constructor
    · intro ⟨h1, h2⟩
      refine ⟨?_, h1⟩
      by_contra hc
      push_neg at hc
      exact absurd ((lt_cutoff_iff m i).mpr hc) (not_lt.mpr h2)
    · intro ⟨h1, h2⟩
      refine ⟨h2, ?_⟩
      by_contra hc
      push_neg at hc
      exact absurd ((lt_cutoff_iff m i).mp hc) (by omega)
  exact ⟨by rw [lowW, cLW, hset], by rw [lowC, cLC, hset],
    by rw [highW, cHW, hset'], by rw [highC, cHC, hset']⟩

/-- At a mean within bounds whose two classes are non-empty, the loop body
computes `stepC` at the integer cutoff. -/
lemma stepMean_eq_stepC (img : Image) (m : ℚ) (hm255 : m ≤ 255)
    (hl : lowC img m ≠ 0) (hh : highC img m ≠ 0) :
    stepMean img m = some (stepC (grayHist img) (cutoff m)) := by
  obtain ⟨e1, e2, e3, e4⟩ := partition_eq img m hm255
  have hl' : ((cLC (grayHist img) (cutoff m) : ℕ) : ℚ) ≠ 0 := by
    rw [← e2]
    exact_mod_cast hl
  have hh' : ((cHC (grayHist img) (cutoff m) : ℕ) : ℚ) ≠ 0 := by
    rw [← e4]
    exact_mod_cast hh
  unfold stepMean stepC
  rw [e1, e2, e3, e4]
  simp only [qdiv, qadd, if_neg hl', if_neg hh', Option.some.injEq]
  rw [if_neg (by norm_num : (2 : ℚ) ≠ 0)]

lemma cLC_cast_nonneg (h : ℕ → ℕ) (c : ℕ) : (0 : ℚ) ≤ (cLC h c : ℚ) := by
  exact_mod_cast Nat.zero_le _

lemma cLW_nonneg (h : ℕ → ℕ) (c : ℕ) : 0 ≤ cLW h c :=
  Finset.sum_nonneg fun i _ => mul_nonneg (by positivity) (by positivity)

lemma cHW_nonneg (h : ℕ → ℕ) (c : ℕ) : 0 ≤ cHW h c :=
  Finset.sum_nonneg fun i _ => mul_nonneg (by positivity) (by positivity)

lemma cLW_le (h : ℕ → ℕ) (c : ℕ) : cLW h c ≤ (c : ℚ) * (cLC h c : ℚ) := by
  rw [cLW, show ((cLC h c : ℕ) : ℚ) = ∑ i ∈ Finset.range c, (h i : ℚ) by
    rw [cLC]; push_cast; rfl]
  rw [Finset.mul_sum]
  refine Finset.sum_le_sum fun i hi => ?_
  have : (i : ℚ) ≤ c := by
    have := Finset.mem_range.mp hi
    exact_mod_cast this.le
  exact mul_le_mul_of_nonneg_right this (by positivity)

lemma cLW_le_255 (h : ℕ → ℕ) (c : ℕ) (hc : c ≤ 256) :
    cLW h c ≤ 255 * (cLC h c : ℚ) := by
  rw [cLW, show ((cLC h c : ℕ) : ℚ) = ∑ i ∈ Finset.range c, (h i : ℚ) by
    rw [cLC]; push_cast; rfl]
  rw [Finset.mul_sum]
  refine Finset.sum_le_sum fun i hi => ?_
  refine mul_le_mul_of_nonneg_right ?_ (by positivity)
  have hi' : i ≤ 255 := by
    have := Finset.mem_range.mp hi
    omega
  exact_mod_cast hi'

lemma cHW_ge (h : ℕ → ℕ) (c : ℕ) : (c : ℚ) * (cHC h c : ℚ) ≤ cHW h c := by
  rw [cHW, show ((cHC h c : ℕ) : ℚ) = ∑ i ∈ Finset.Ico c 256, (h i : ℚ) by
    rw [cHC]; push_cast; rfl]
  rw [Finset.mul_sum]
  refine Finset.sum_le_sum fun i hi => ?_
  have : (c : ℚ) ≤ i := by
    have := (Finset.mem_Ico.mp hi).1
    exact_mod_cast this
  exact mul_le_mul_of_nonneg_right this (by positivity)

lemma cHW_le_255 (h : ℕ → ℕ) (c : ℕ) : cHW h c ≤ 255 * (cHC h c : ℚ) := by
  rw [cHW, show ((cHC h c : ℕ) : ℚ) = ∑ i ∈ Finset.Ico c 256, (h i : ℚ) by
    rw [cHC]; push_cast; rfl]
  rw [Finset.mul_sum]
  refine Finset.sum_le_sum fun i hi => ?_
  have : (i : ℚ) ≤ 255 := by
    have := (Finset.mem_Ico.mp hi).2
    have : i ≤ 255 := by omega
    exact_mod_cast this
  exact mul_le_mul_of_nonneg_right this (by positivity)

lemma cLW_split (h : ℕ → ℕ) {c c' : ℕ} (hcc : c ≤ c') :
    cLW h c' = cLW h c + ∑ i ∈ Finset.Ico c c', (i : ℚ) * (h i : ℚ) := by
  rw [cLW, cLW, Finset.range_eq_Ico,
    ← Finset.sum_Ico_consecutive _ (Nat.zero_le c) hcc]

lemma cLC_split (h : ℕ → ℕ) {c c' : ℕ} (hcc : c ≤ c') :
    cLC h c' = cLC h c + ∑ i ∈ Finset.Ico c c', h i := by
  rw [cLC, cLC, Finset.range_eq_Ico,
    ← Finset.sum_Ico_consecutive _ (Nat.zero_le c) hcc]

lemma cHW_split (h : ℕ → ℕ) {c c' : ℕ} (hcc : c ≤ c') (hc' : c' ≤ 256) :
    cHW h c = (∑ i ∈ Finset.Ico c c', (i : ℚ) * (h i : ℚ)) + cHW h c' := by
  rw [cHW, cHW, ← Finset.sum_Ico_consecutive _ hcc hc']

lemma cHC_split (h : ℕ → ℕ) {c c' : ℕ} (hcc : c ≤ c') (hc' : c' ≤ 256) :
    cHC h c = (∑ i ∈ Finset.Ico c c', h i) + cHC h c' := by
  rw [cHC, cHC, ← Finset.sum_Ico_consecutive _ hcc hc']

/-- Enlarging the low class (moving larger levels into it) cannot decrease
its weighted mean. -/
lemma lowMean_mono (h : ℕ → ℕ) {c c' : ℕ} (hcc : c ≤ c') (hc0 : cLC h c ≠ 0) :
    cLW h c / (cLC h c : ℚ) ≤ cLW h c' / (cLC h c' : ℚ) := by
  have hDE : (c : ℚ) * ((∑ i ∈ Finset.Ico c c', h i : ℕ) : ℚ)
      ≤ ∑ i ∈ Finset.Ico c c', (i : ℚ) * (h i : ℚ) := by
    push_cast
    rw [Finset.mul_sum]
    refine Finset.sum_le_sum fun i hi => ?_
    have : (c : ℚ) ≤ i := by
      have := (Finset.mem_Ico.mp hi).1
      exact_mod_cast this
    exact mul_le_mul_of_nonneg_right this (by positivity)
  have hWc : cLW h c ≤ (c : ℚ) * (cLC h c : ℚ) := cLW_le h c
  have hsplitW : cLW h c' = cLW h c
      + ∑ i ∈ Finset.Ico c c', (i : ℚ) * (h i : ℚ) := cLW_split h hcc
  have hsplitC : ((cLC h c' : ℕ) : ℚ)
      = ((cLC h c : ℕ) : ℚ) + ((∑ i ∈ Finset.Ico c c', h i : ℕ) : ℚ) := by
    rw [cLC_split h hcc]
    push_cast
    ring
  have hc0' : (0 : ℚ) < (cLC h c : ℚ) := by
    have : 0 < cLC h c := Nat.pos_of_ne_zero hc0
    exact_mod_cast this
  have hEnn : (0 : ℚ) ≤ ((∑ i ∈ Finset.Ico c c', h i : ℕ) : ℚ) := by positivity
  have hDnn : (0 : ℚ) ≤ ∑ i ∈ Finset.Ico c c', (i : ℚ) * (h i : ℚ) :=
    Finset.sum_nonneg fun i _ => mul_nonneg (by positivity) (by positivity)
  have hc0'' : (0 : ℚ) < (cLC h c' : ℚ) := by
    rw [hsplitC]
    linarith
  rw [div_le_div_iff hc0' hc0'', hsplitW, hsplitC]
  nlinarith [mul_nonneg hEnn hc0'.le]

/-- Shrinking the high class (removing its smaller levels) cannot decrease
its weighted mean. -/
lemma highMean_mono (h : ℕ → ℕ) {c c' : ℕ} (hcc : c ≤ c') (hc256 : c' ≤ 256)
    (hc0 : cHC h c' ≠ 0) :
    cHW h c / (cHC h c : ℚ) ≤ cHW h c' / (cHC h c' : ℚ) := by
  have hDE : (∑ i ∈ Finset.Ico c c', (i : ℚ) * (h i : ℚ))
      ≤ (c' : ℚ) * ((∑ i ∈ Finset.Ico c c', h i : ℕ) : ℚ) := by
    push_cast
    rw [Finset.mul_sum]
    refine Finset.sum_le_sum fun i hi => ?_
    have : (i : ℚ) ≤ c' := by
      have := (Finset.mem_Ico.mp hi).2
      exact_mod_cast this.le
    exact mul_le_mul_of_nonneg_right this (by positivity)
  have hWc' : (c' : ℚ) * (cHC h c' : ℚ) ≤ cHW h c' := cHW_ge h c'
  have hsplitW : cHW h c = (∑ i ∈ Finset.Ico c c', (i : ℚ) * (h i : ℚ))
      + cHW h c' := cHW_split h hcc hc256
  have hsplitC : ((cHC h c : ℕ) : ℚ)
      = ((∑ i ∈ Finset.Ico c c', h i : ℕ) : ℚ) + ((cHC h c' : ℕ) : ℚ) := by
    rw [cHC_split h hcc hc256]
    push_cast
    ring
  have hc0' : (0 : ℚ) < (cHC h c' : ℚ) := by
    have : 0 < cHC h c' := Nat.pos_of_ne_zero hc0
    exact_mod_cast this
  have hEnn : (0 : ℚ) ≤ ((∑ i ∈ Finset.Ico c c', h i : ℕ) : ℚ) := by positivity
  have hc0'' : (0 : ℚ) < (cHC h c : ℚ) := by
    rw [hsplitC]
    linarith
  rw [div_le_div_iff hc0'' hc0', hsplitW, hsplitC]
  nlinarith [mul_nonneg hEnn hc0'.le]

lemma stepC_mono (h : ℕ → ℕ) {c c' : ℕ} (hcc : c ≤ c') (hc256 : c' ≤ 256)
    (hlc : cLC h c ≠ 0) (hhc' : cHC h c' ≠ 0) :
    stepC h c ≤ stepC h c' := by
  unfold stepC
  have h1 := lowMean_mono h hcc hlc
  have h2 := highMean_mono h hcc hc256 hhc'
  linarith

lemma stepC_bounds (h : ℕ → ℕ) (c : ℕ) (hc : c ≤ 256)
    (hlc : cLC h c ≠ 0) (hhc : cHC h c ≠ 0) :
    0 ≤ stepC h c ∧ stepC h c ≤ 255 := by
  have hl' : (0 : ℚ) < (cLC h c : ℚ) := by
    have : 0 < cLC h c := Nat.pos_of_ne_zero hlc
    exact_mod_cast this
  have hh' : (0 : ℚ) < (cHC h c : ℚ) := by
    have : 0 < cHC h c := Nat.pos_of_ne_zero hhc
    exact_mod_cast this
  have l1 : 0 ≤ cLW h c / (cLC h c : ℚ) := div_nonneg (cLW_nonneg h c) hl'.le
  have l2 : cLW h c / (cLC h c : ℚ) ≤ 255 := by
    rw [div_le_iff hl']
    have := cLW_le_255 h c hc
    linarith
  have h1 : 0 ≤ cHW h c / (cHC h c : ℚ) := div_nonneg (cHW_nonneg h c) hh'.le
  have h2 : cHW h c / (cHC h c : ℚ) ≤ 255 := by
    rw [div_le_iff hh']
    have := cHW_le_255 h c
    linarith
  unfold stepC
  constructor <;> linarith

lemma meanInit_bounds (img : Image) {m : ℚ} (hm : meanInit img = some m) :
    0 ≤ m ∧ m ≤ 255 := by
  unfold meanInit at hm
  simp only [qdiv] at hm
  by_cases hz : ((grayCount img : ℕ) : ℚ) = 0
  · rw [if_pos hz] at hm
    cases hm
  · rw [if_neg hz] at hm
    have hmm := Option.some.inj hm
    subst hmm
    have hpos : (0 : ℚ) < (grayCount img : ℚ) :=
      lt_of_le_of_ne (by positivity) (Ne.symm hz)
    have h1 : (0 : ℚ) ≤ grayTotalW img := cLW_nonneg (grayHist img) 256
    have h2 : grayTotalW img ≤ 255 * (grayCount img : ℚ) :=
      cLW_le_255 (grayHist img) 256 (le_refl 256)
    exact ⟨div_nonneg h1 hpos.le, by rw [div_le_iff hpos]; linarith⟩

/-- C7: on a non-empty image none of whose iterations produces an empty
below-mean or at-or-above-mean class, the mean-iterative loop reaches a
check where the change between successive means is at most 0.01 within 258
steps, and with that much fuel `mean_iterative_selection` returns
`threshold(buf, m, 255)` for the final mean `m` truncated to 8 bits. -/
theorem mean_iterative_terminates (img : Image)
    (hne : img.width * img.height ≠ 0)
    (H : ∀ k : ℕ, ∃ m : ℚ, meanSeq img k = some m
        ∧ lowC img m ≠ 0 ∧ highC img m ≠ 0) :
    ∃ k, k ≤ 258 ∧ condAt img k = false
      ∧ ∀ fuel, 258 ≤ fuel →
          ∃ m : ℚ, meanLoop img fuel (some 0) (meanInit img) = some (some m)
            ∧ meanIterativeSelection img fuel
                = some (threshold img (u8castQ m) 255) := by
  classical
  choose mv hmv hlc hhc using H
  have hb0 : 0 ≤ mv 0 ∧ mv 0 ≤ 255 :=
    meanInit_bounds img (by exact hmv 0)
  have hclc : ∀ k, mv k ≤ 255 →
      cLC (grayHist img) (cutoff (mv k)) ≠ 0
        ∧ cHC (grayHist img) (cutoff (mv k)) ≠ 0 := by
    intro k h255
    obtain ⟨_, e2, _, e4⟩ := partition_eq img (mv k) h255
    exact ⟨e2 ▸ hlc k, e4 ▸ hhc k⟩
  have hrec : ∀ k, mv k ≤ 255 →
      mv (k + 1) = stepC (grayHist img) (cutoff (mv k)) := by
    intro k hk255
    have h1 : meanSeq img (k + 1) = stepMeanF img (meanSeq img k) := rfl
    rw [hmv (k + 1), hmv k,
      show stepMeanF img (some (mv k)) = stepMean img (mv k) from rfl,
      stepMean_eq_stepC img (mv k) hk255 (hlc k) (hhc k)] at h1
    exact Option.some.inj h1
  have hbnd : ∀ k, 0 ≤ mv k ∧ mv k ≤ 255 := by
    intro k
    induction k with
    | zero => exact hb0
    | succ k ih =>
        rw [hrec k ih.2]
        exact stepC_bounds (grayHist img) (cutoff (mv k)) (cutoff_le_256 ih.2)
          (hclc k ih.2).1 (hclc k ih.2).2
  have hkey : ∃ k, k ≤ 256 ∧ cutoff (mv k) = cutoff (mv (k + 1)) := by
    rcases le_total (mv 0) (mv 1) with hdir | hdir
    · have hmono : ∀ k, mv k ≤ mv (k + 1) := by
        intro k
        induction k with
        | zero => exact hdir
        | succ k ih =>
            rw [hrec k (hbnd k).2, hrec (k + 1) (hbnd (k + 1)).2]
            exact stepC_mono (grayHist img) (cutoff_mono ih)
              (cutoff_le_256 (hbnd (k + 1)).2)
              (hclc k (hbnd k).2).1 (hclc (k + 1) (hbnd (k + 1)).2).2
      by_contra hno
      push_neg at hno
      have hstrict : ∀ k, k ≤ 257 → cutoff (mv 0) + k ≤ cutoff (mv k) := by
        intro k
        induction k with
        | zero => intro _; omega
        | succ k ih =>
            intro hk257
            have h1 := ih (by omega)
            have h2 : cutoff (mv k) < cutoff (mv (k + 1)) :=
              lt_of_le_of_ne (cutoff_mono (hmono k)) (hno k (by omega))
            omega
      have h1 := hstrict 257 (le_refl 257)
      have h2 := cutoff_le_256 (hbnd 257).2
      omega
    · have hmono : ∀ k, mv (k + 1) ≤ mv k := by
        intro k
        induction k with
        | zero => exact hdir
        | succ k ih =>
            rw [hrec k (hbnd k).2, hrec (k + 1) (hbnd (k + 1)).2]
            exact stepC_mono (grayHist img) (cutoff_mono ih)
              (cutoff_le_256 (hbnd k).2)
              (hclc (k + 1) (hbnd (k + 1)).2).1 (hclc k (hbnd k).2).2
      by_contra hno
      push_neg at hno
      have hstrict : ∀ k, k ≤ 257 → cutoff (mv k) + k ≤ cutoff (mv 0) := by
        intro k
        induction k with
        | zero => intro _; omega
        | succ k ih =>
            intro hk257
            have h1 := ih (by omega)
            have h2 : cutoff (mv (k + 1)) < cutoff (mv k) :=
              lt_of_le_of_ne (cutoff_mono (hmono k)) (fun he => hno k (by omega) he.symm)
            omega
      have h1 := hstrict 257 (le_refl 257)
      have h2 := cutoff_le_256 (hbnd 0).2
      omega
  obtain ⟨k, hk, hceq⟩ := hkey
  have heq : mv (k + 2) = mv (k + 1) := by
    have e1 : mv (k + 2) = stepC (grayHist img) (cutoff (mv (k + 1))) :=
      hrec (k + 1) (hbnd (k + 1)).2
    have e2 : mv (k + 1) = stepC (grayHist img) (cutoff (mv k)) :=
      hrec k (hbnd k).2
    rw [e1, ← hceq]
    exact e2.symm
  have hcond : condAt img (k + 2) = false := by
    have hps : prevSeq img (k + 2) = meanSeq img (k + 1) := rfl
    unfold condAt meanCond
    rw [hps, hmv (k + 2), hmv (k + 1), heq]
    simp only [qsub, qabs, qgtB, sub_self, abs_zero]
    rw [decide_eq_false_iff_not]
    norm_num
  refine ⟨k + 2, by omega, hcond, ?_⟩
  intro fuel hfuel
  obtain ⟨k', hk', hck', hres⟩ := meanLoop_exit img fuel 0
    ⟨k + 2, by omega, by simpa using hcond⟩
  rw [show prevSeq img 0 = some 0 from rfl,
    show meanSeq img 0 = meanInit img from rfl, hmv (0 + k')] at hres
  refine ⟨mv (0 + k'), hres, ?_⟩
  rw [meanIterativeSelection, hres]
  rfl

/-- C7 witness helper: the grayscale histogram of the black/white 2×1
image. -/
lemma grayHist_bw :
    grayHist ⟨2, 1, [0, 0, 0, 255, 255, 255, 255, 255]⟩
      = fun v => List.count v [0, 255] := by
  funext v
  show (List.map (fun p => grayLum p.1 p.2.1 p.2.2.1)
      (chunks4 [0, 0, 0, 255, 255, 255, 255, 255])).count v = _
  rw [show chunks4 [0, 0, 0, 255, 255, 255, 255, 255]
      = [(0, 0, 0, 255), (255, 255, 255, 255)] from rfl]
  simp [grayLum_eq]

lemma count_pair_eq (a b : ℕ) (i : ℕ) :
    List.count i [a, b] = (if a = i then 1 else 0) + (if b = i then 1 else 0) := by
  simp only [List.count_cons, List.count_nil, beq_iff_eq]
  omega

/-- Weighted bucket sum of a two-level histogram over any index set. -/
lemma sum_mul_count_pair (S : Finset ℕ) (a b : ℕ) :
    (∑ i ∈ S, (i : ℚ) * ((List.count i [a, b] : ℕ) : ℚ))
      = (if a ∈ S then (a : ℚ) else 0) + (if b ∈ S then (b : ℚ) else 0) := by
  have hterm : ∀ i ∈ S, (i : ℚ) * ((List.count i [a, b] : ℕ) : ℚ)
      = (if a = i then (i : ℚ) else 0) + (if b = i then (i : ℚ) else 0) := by
    intro i _
    rw [count_pair_eq]
    push_cast
    split_ifs <;> ring
  rw [Finset.sum_congr rfl hterm, Finset.sum_add_distrib,
    Finset.sum_ite_eq S a (fun i => (i : ℚ)), Finset.sum_ite_eq S b (fun i => (i : ℚ))]

/-- Plain bucket sum of a two-level histogram over any index set. -/
lemma sum_count_pair (S : Finset ℕ) (a b : ℕ) :
    (∑ i ∈ S, List.count i [a, b])
      = (if a ∈ S then 1 else 0) + (if b ∈ S then 1 else 0) := by
  have hterm : ∀ i ∈ S, List.count i [a, b]
      = (if a = i then 1 else 0) + (if b = i then 1 else 0) := fun i _ => count_pair_eq a b i
  rw [Finset.sum_congr rfl hterm, Finset.sum_add_distrib,
    Finset.sum_ite_eq S a (fun _ => 1), Finset.sum_ite_eq S b (fun _ => 1)]

set_option maxRecDepth 4000 in
lemma grayCount_bw : grayCount ⟨2, 1, [0, 0, 0, 255, 255, 255, 255, 255]⟩ = 2 := by
  unfold grayCount
  rw [grayHist_bw]
  decide

lemma grayTotalW_bw : grayTotalW ⟨2, 1, [0, 0, 0, 255, 255, 255, 255, 255]⟩ = 255 := by
  unfold grayTotalW
  rw [grayHist_bw, sum_mul_count_pair (Finset.range 256) 0 255]
  rw [if_pos (Finset.mem_range.mpr (by omega : (0 : ℕ) < 256)),
    if_pos (Finset.mem_range.mpr (by omega : (255 : ℕ) < 256))]
  norm_num

lemma meanInit_bw :
    meanInit ⟨2, 1, [0, 0, 0, 255, 255, 255, 255, 255]⟩ = some (255 / 2) := by
  unfold meanInit
  rw [grayTotalW_bw, grayCount_bw]
  simp only [qdiv]
  rw [if_neg (by norm_num : ((2 : ℕ) : ℚ) ≠ 0)]
  norm_num

lemma lowC_bw : lowC ⟨2, 1, [0, 0, 0, 255, 255, 255, 255, 255]⟩ (255 / 2) = 1 := by
  unfold lowC
  rw [grayHist_bw, sum_count_pair]
  rw [if_pos (Finset.mem_filter.mpr
    ⟨Finset.mem_range.mpr (by omega), by norm_num⟩)]
  rw [if_neg (fun hmem => by
    have := (Finset.mem_filter.mp hmem).2
    norm_num at this)]

lemma highC_bw : highC ⟨2, 1, [0, 0, 0, 255, 255, 255, 255, 255]⟩ (255 / 2) = 1 := by
  unfold highC
  rw [grayHist_bw, sum_count_pair]
  rw [if_neg (fun hmem => by
    have := (Finset.mem_filter.mp hmem).2
    norm_num at this)]
  rw [if_pos (Finset.mem_filter.mpr
    ⟨Finset.mem_range.mpr (by omega), by norm_num⟩)]

lemma lowW_bw : lowW ⟨2, 1, [0, 0, 0, 255, 255, 255, 255, 255]⟩ (255 / 2) = 0 := by
  unfold lowW
  rw [grayHist_bw, sum_mul_count_pair]
  rw [if_pos (Finset.mem_filter.mpr
    ⟨Finset.mem_range.mpr (by omega), by norm_num⟩)]
  rw [if_neg (fun hmem => by
    have := (Finset.mem_filter.mp hmem).2
    norm_num at this)]
  norm_num

lemma highW_bw : highW ⟨2, 1, [0, 0, 0, 255, 255, 255, 255, 255]⟩ (255 / 2) = 255 := by
  unfold highW
  rw [grayHist_bw, sum_mul_count_pair]
  rw [if_neg (fun hmem => by
    have := (Finset.mem_filter.mp hmem).2
    norm_num at this)]
  rw [if_pos (Finset.mem_filter.mpr
    ⟨Finset.mem_range.mpr (by omega), by norm_num⟩)]
  norm_num

lemma stepMeanF_bw :
    stepMeanF ⟨2, 1, [0, 0, 0, 255, 255, 255, 255, 255]⟩ (some (255 / 2))
      = some (255 / 2) := by
  show stepMean ⟨2, 1, [0, 0, 0, 255, 255, 255, 255, 255]⟩ (255 / 2) = some (255 / 2)
  unfold stepMean
  rw [lowW_bw, lowC_bw, highW_bw, highC_bw]
  simp only [qdiv, qadd, Nat.cast_one]
  rw [if_neg (by norm_num : (1 : ℚ) ≠ 0)]
  norm_num

lemma meanSeq_bw :
    ∀ k, meanSeq ⟨2, 1, [0, 0, 0, 255, 255, 255, 255, 255]⟩ k = some (255 / 2) := by
  intro k
  induction k with
  | zero => exact meanInit_bw
  | succ k ih =>
      show stepMeanF ⟨2, 1, [0, 0, 0, 255, 255, 255, 255, 255]⟩
          (meanSeq ⟨2, 1, [0, 0, 0, 255, 255, 255, 255, 255]⟩ k) = some (255 / 2)
      rw [ih]
      exact stepMeanF_bw

lemma meanH_bw :
    ∀ k, ∃ m : ℚ, meanSeq ⟨2, 1, [0, 0, 0, 255, 255, 255, 255, 255]⟩ k = some m
      ∧ lowC ⟨2, 1, [0, 0, 0, 255, 255, 255, 255, 255]⟩ m ≠ 0
      ∧ highC ⟨2, 1, [0, 0, 0, 255, 255, 255, 255, 255]⟩ m ≠ 0 :=
  fun k => ⟨255 / 2, meanSeq_bw k, by rw [lowC_bw]; omega, by rw [highC_bw]; omega⟩

/-- Witness for C7: the 2×1 black/white image, whose mean sequence is
constantly 127.5 with both classes non-empty at every iteration. -/
theorem mean_iterative_terminates_witness :
    (2 * 1 ≠ 0)
      ∧ (∀ k, ∃ m : ℚ,
          meanSeq ⟨2, 1, [0, 0, 0, 255, 255, 255, 255, 255]⟩ k = some m
            ∧ lowC ⟨2, 1, [0, 0, 0, 255, 255, 255, 255, 255]⟩ m ≠ 0
            ∧ highC ⟨2, 1, [0, 0, 0, 255, 255, 255, 255, 255]⟩ m ≠ 0)
      ∧ (∃ k, k ≤ 258 ∧ condAt ⟨2, 1, [0, 0, 0, 255, 255, 255, 255, 255]⟩ k = false
          ∧ ∀ fuel, 258 ≤ fuel →
              ∃ m : ℚ, meanLoop ⟨2, 1, [0, 0, 0, 255, 255, 255, 255, 255]⟩ fuel (some 0)
                  (meanInit ⟨2, 1, [0, 0, 0, 255, 255, 255, 255, 255]⟩) = some (some m)
                ∧ meanIterativeSelection ⟨2, 1, [0, 0, 0, 255, 255, 255, 255, 255]⟩ fuel
                    = some (threshold ⟨2, 1, [0, 0, 0, 255, 255, 255, 255, 255]⟩
                        (u8castQ m) 255)) :=
  ⟨by omega, meanH_bw,
    mean_iterative_terminates ⟨2, 1, [0, 0, 0, 255, 255, 255, 255, 255]⟩
      (by decide) meanH_bw⟩

end Binhis
